import Mathlib

/-!
Shallow embedding of `src/query/closest_points/closest_points_composite_shape_shape.rs`
(parry): closest points between a composite shape and any other shape, computed by a
best-first branch-and-bound traversal of the composite's bounding-volume hierarchy.

Modelling conventions:
* scalars are `ℚ` (the source computes with the float alias `Real`);
* a SIMD lane batch (`SimdAabb`, `SimdReal`, `SimdBool`, arrays of width `SIMD_WIDTH`)
  is a list with one element per lane; a `splat` vector is the single splatted value;
* the engine's running best cost is `Option ℚ`, with `none` standing for `Real::MAX`
  (the initial best cost), so that `w < best` always holds against the initial best;
* fallible calls return `Except`; the `expect` unwrap of the top-level query is an
  `Except String` with the source's panic message as the error value.
-/

namespace Parry

/-- Points of the `n`-dimensional ambient space, one rational per coordinate. -/
abbrev Vecq (n : ℕ) := Fin n → ℚ

/-- Modelled from the spec: an axis-aligned bounding box (`bounding_volume::Aabb`,
code outside `src/`), given by per-axis `mins` and `maxs`. -/
structure Aabb (n : ℕ) where
  mins : Vecq n
  maxs : Vecq n

/-- Modelled from the spec: the center of a box (`Aabb::center`), the per-axis
midpoint of `mins` and `maxs`. -/
def Aabb.center {n : ℕ} (a : Aabb n) : Vecq n :=
  fun i => (a.mins i + a.maxs i) / 2

/-- Modelled from the spec: the half-extents of a box (`Aabb::half_extents`),
the per-axis half width. -/
def Aabb.halfExtents {n : ℕ} (a : Aabb n) : Vecq n :=
  fun i => (a.maxs i - a.mins i) / 2

/-- Modelled from the spec: the public result type `query::ClosestPoints` (code
outside `src/`): the shapes intersect, or the closest points are within the margin,
or the shapes are farther apart than the margin. -/
inductive ClosestPoints (P : Type) where
  | Intersecting : ClosestPoints P
  | WithinMargin : P → P → ClosestPoints P
  | Disjoint : ClosestPoints P
deriving DecidableEq

/-- Modelled from the spec: `ClosestPoints::flipped` swaps the two points of a
`WithinMargin` pair and leaves the `Intersecting` and `Disjoint` tags unchanged. -/
def ClosestPoints.flipped {P : Type} : ClosestPoints P → ClosestPoints P
  | .Intersecting => .Intersecting
  | .WithinMargin p1 p2 => .WithinMargin p2 p1
  | .Disjoint => .Disjoint

/-- Modelled from the spec: the geometric primitives the visitor consumes whose code
lives outside `src/` — isometry application (`transform_point` / the `*` action),
isometry inversion (`inverse`), the composition `a.inv_mul b = a⁻¹ * b`, the
Euclidean point distance `na::distance`, the distance from the origin to a box
(`SimdAabb::distance_to_origin`: zero when the box contains the origin, otherwise
the distance to the nearest face or corner), and a shape's bounding box under a
pose (`Shape::compute_aabb`).  `P` is the point type, `I` the isometry type and
`S` the shape type; concrete instances are supplied by the witnesses. -/
structure GeomPrims (n : ℕ) (P I S : Type) where
  apply : I → P → P
  inv : I → I
  invMul : I → I → I
  dist : P → P → ℚ
  distToOrigin : Aabb n → ℚ
  computeAabb : S → I → Aabb n

/-- Modelled from the spec: `utils::IsometryOpt::inv_mul` — an optional part pose,
`none` meaning the identity, composed with an isometry on the left inverse. -/
def optInvMul {n : ℕ} {P I S : Type} (g : GeomPrims n P I S) : Option I → I → I
  | none, r => r
  | some p, r => g.invMul p r

/-- Modelled from the spec: `utils::IsometryOpt::transform_point` — an optional part
pose applied to a point, `none` meaning the identity. -/
def optApply {n : ℕ} {P I S : Type} (g : GeomPrims n P I S) : Option I → P → P
  | none, p => p
  | some i, p => g.apply i p

/-- Modelled from the spec: the pluggable narrow-phase dispatcher contract
`QueryDispatcher::closest_points(pos12, g1, g2, margin)`, which may fail when no
algorithm is registered for the shape pair. -/
abbrev QueryDispatcher (P I S : Type) := I → S → S → ℚ → Except Unit (ClosestPoints P)

/-- Modelled from the spec: a SIMD-batched bounding-volume-hierarchy node tree
(`typed_qbvh`, code outside `src/`).  An internal node packs sibling lanes, each a
bounding box with its subtree; a leaf node packs lanes, each a bounding box with an
optional part identifier (missing lanes carry `none`). -/
inductive Qbvh (n : ℕ) (A : Type) where
  | node : List (Aabb n × Qbvh n A) → Qbvh n A
  | leaves : List (Aabb n × Option A) → Qbvh n A

/-- Modelled from the spec: the composite-shape contract (`TypedSimdCompositeShape`):
a bounding-volume hierarchy over parts plus the lookup `map_untyped_part_at`, which
yields a part's optional local pose and its leaf shape. -/
structure TypedSimdCompositeShape (n : ℕ) (I S A : Type) where
  qbvh : Qbvh n A
  parts : A → Option I × S

/-- The visitor state of `CompositeShapeAgainstShapeClosestPointsVisitor`: the
precomputed Minkowski-sum shift and half-extent margin, the query margin, and the
borrowed dispatcher, relative pose and two shapes. -/
structure CompositeShapeAgainstShapeClosestPointsVisitor
    (n : ℕ) (P I S A : Type) where
  msumShift : Vecq n
  msumMargin : Vecq n
  margin : ℚ
  dispatcher : QueryDispatcher P I S
  pos12 : I
  g1 : TypedSimdCompositeShape n I S A
  g2 : S

/-- Constructor `CompositeShapeAgainstShapeClosestPointsVisitor::new`: computes the
second shape's bounding box under the relative pose once, then stores the negated
center as `msum_shift` and the half-extents as `msum_margin`. -/
def CompositeShapeAgainstShapeClosestPointsVisitor.new
    {n : ℕ} {P I S A : Type} (g : GeomPrims n P I S)
    (dispatcher : QueryDispatcher P I S) (pos12 : I)
    (g1 : TypedSimdCompositeShape n I S A) (g2 : S) (margin : ℚ) :
    CompositeShapeAgainstShapeClosestPointsVisitor n P I S A :=
  let ls_aabb2 := g.computeAabb g2 pos12
  { msumShift := fun i => -(ls_aabb2.center i)
    msumMargin := fun i => ls_aabb2.halfExtents i
    margin := margin
    dispatcher := dispatcher
    pos12 := pos12
    g1 := g1
    g2 := g2 }

theorem visitorNew_dispatcher {n : ℕ} {P I S A : Type} (g : GeomPrims n P I S)
    (dispatcher : QueryDispatcher P I S) (pos12 : I)
    (g1 : TypedSimdCompositeShape n I S A) (g2 : S) (margin : ℚ) :
    (CompositeShapeAgainstShapeClosestPointsVisitor.new g dispatcher pos12 g1 g2
      margin).dispatcher = dispatcher := rfl

theorem visitorNew_pos12 {n : ℕ} {P I S A : Type} (g : GeomPrims n P I S)
    (dispatcher : QueryDispatcher P I S) (pos12 : I)
    (g1 : TypedSimdCompositeShape n I S A) (g2 : S) (margin : ℚ) :
    (CompositeShapeAgainstShapeClosestPointsVisitor.new g dispatcher pos12 g1 g2
      margin).pos12 = pos12 := rfl

theorem visitorNew_g1 {n : ℕ} {P I S A : Type} (g : GeomPrims n P I S)
    (dispatcher : QueryDispatcher P I S) (pos12 : I)
    (g1 : TypedSimdCompositeShape n I S A) (g2 : S) (margin : ℚ) :
    (CompositeShapeAgainstShapeClosestPointsVisitor.new g dispatcher pos12 g1 g2
      margin).g1 = g1 := rfl

theorem visitorNew_g2 {n : ℕ} {P I S A : Type} (g : GeomPrims n P I S)
    (dispatcher : QueryDispatcher P I S) (pos12 : I)
    (g1 : TypedSimdCompositeShape n I S A) (g2 : S) (margin : ℚ) :
    (CompositeShapeAgainstShapeClosestPointsVisitor.new g dispatcher pos12 g1 g2
      margin).g2 = g2 := rfl

theorem visitorNew_margin {n : ℕ} {P I S A : Type} (g : GeomPrims n P I S)
    (dispatcher : QueryDispatcher P I S) (pos12 : I)
    (g1 : TypedSimdCompositeShape n I S A) (g2 : S) (margin : ℚ) :
    (CompositeShapeAgainstShapeClosestPointsVisitor.new g dispatcher pos12 g1 g2
      margin).margin = margin := rfl

/-- Modelled from the spec: the visitor statuses of the traversal engine
(`SimdBestFirstVisitStatus`): exit-early with an optional final result, or continue
with per-lane weights, an inclusion mask and optional per-lane results. -/
inductive SimdBestFirstVisitStatus (R : Type) where
  | ExitEarly : Option R → SimdBestFirstVisitStatus R
  | MaybeContinue (weights : List ℚ) (mask : List Bool) (results : List (Option R)) :
      SimdBestFirstVisitStatus R

/-- Comparison of a candidate weight against the running best cost; `none` is the
`Real::MAX` sentinel, against which every weight compares strictly smaller. -/
def ltBest (w : ℚ) (best : Option ℚ) : Bool :=
  match best with
  | none => true
  | some b => decide (w < b)

/-- The Minkowski-sum box of a visited lane box: shifted by `msum_shift`, with the
mins further shifted by the negated `msum_margin` and the maxs by `msum_margin`
(the computation at the top of `visit`). -/
def msumAabb {n : ℕ} {P I S A : Type}
    (v : CompositeShapeAgainstShapeClosestPointsVisitor n P I S A) (b : Aabb n) :
    Aabb n :=
  { mins := fun i => b.mins i + v.msumShift i + (-(v.msumMargin i))
    maxs := fun i => b.maxs i + v.msumShift i + v.msumMargin i }

/-- The per-lane lower-bound score of the visitor: the distance from the origin to
the lane's Minkowski-sum box. -/
def laneScore {n : ℕ} {P I S A : Type} (g : GeomPrims n P I S)
    (v : CompositeShapeAgainstShapeClosestPointsVisitor n P I S A) (b : Aabb n) : ℚ :=
  g.distToOrigin (msumAabb v b)

/-- The dispatcher call a leaf lane performs for part `pid`: closest points between
the part's shape (under `part_pos1.inv_mul(pos12)`) and the second shape. -/
def partOutcome {n : ℕ} {P I S A : Type} (g : GeomPrims n P I S)
    (v : CompositeShapeAgainstShapeClosestPointsVisitor n P I S A) (pid : A) :
    Except Unit (ClosestPoints P) :=
  v.dispatcher (optInvMul g (v.g1.parts pid).1 v.pos12) (v.g1.parts pid).2 v.g2 v.margin

/-- The leaf's first closest point transformed into the composite frame by the
part's local pose (`part_pos1.transform_point(p1)`). -/
def lanePoint1 {n : ℕ} {P I S A : Type} (g : GeomPrims n P I S)
    (v : CompositeShapeAgainstShapeClosestPointsVisitor n P I S A) (pid : A) (p1 : P) :
    P :=
  optApply g (v.g1.parts pid).1 p1

/-- The weight recorded for a `WithinMargin` lane: the Euclidean distance between
the transformed first point and `pos12 * p2` (`na::distance(&p1, &p2_1)`). -/
def laneWeight {n : ℕ} {P I S A : Type} (g : GeomPrims n P I S)
    (v : CompositeShapeAgainstShapeClosestPointsVisitor n P I S A) (pid : A)
    (p1 p2 : P) : ℚ :=
  g.dist (lanePoint1 g v pid p1) (g.apply v.pos12 p2)

/-- Per-lane output of the leaf loop: the lane's weight, mask bit and optional
result, mirroring the `weights` / `mask` / `results` arrays of `visit`. -/
abbrev LaneOut (R : Type) := ℚ × Bool × Option R

/-- Prepends one lane's output to the accumulated arrays of the leaf loop, or
propagates an early exit raised by a later lane. -/
def laneCons {R : Type} (x : LaneOut R) :
    (List ℚ × List Bool × List (Option R)) ⊕ R →
      (List ℚ × List Bool × List (Option R)) ⊕ R
  | .inl (ws, ms, rs) => .inl (x.1 :: ws, x.2.1 :: ms, x.2.2 :: rs)
  | .inr r => .inr r

/-- The leaf loop of `visit` (`for ii in 0..SIMD_WIDTH`): a lane is dispatched when
its bitmask bit is set (its score beats the best) and it carries a part id; a
`WithinMargin` outcome records weight, mask bit and tagged result; `Intersecting`
exits early with that part id; `Disjoint` and dispatch errors record nothing. -/
def visitLeavesGo {n : ℕ} {P I S A : Type} (g : GeomPrims n P I S)
    (v : CompositeShapeAgainstShapeClosestPointsVisitor n P I S A)
    (best : Option ℚ) :
    List (Aabb n × Option A) →
      (List ℚ × List Bool × List (Option (A × ClosestPoints P))) ⊕ (A × ClosestPoints P)
  | [] => .inl ([], [], [])
  | (bv, od) :: rest =>
    match od with
    | some part_id =>
      if ltBest (laneScore g v bv) best then
        match partOutcome g v part_id with
        | .ok (.WithinMargin p1 p2) =>
          laneCons (laneWeight g v part_id p1 p2, true,
              some (part_id, .WithinMargin (lanePoint1 g v part_id p1) p2))
            (visitLeavesGo g v best rest)
        | .ok .Intersecting => .inr (part_id, .Intersecting)
        | .ok .Disjoint => laneCons (0, false, none) (visitLeavesGo g v best rest)
        | .error _ => laneCons (0, false, none) (visitLeavesGo g v best rest)
      else laneCons (0, false, none) (visitLeavesGo g v best rest)
    | none => laneCons (0, false, none) (visitLeavesGo g v best rest)

/-- The visitor's `visit` method.  For an internal node (no leaf data) it returns the
per-lane Minkowski-sum scores as weights and the strict comparisons against the best
cost as the mask; for a leaf node it runs the leaf loop, converting an intersection
into an early exit. -/
def CompositeShapeAgainstShapeClosestPointsVisitor.visit
    {n : ℕ} {P I S A : Type} (g : GeomPrims n P I S)
    (v : CompositeShapeAgainstShapeClosestPointsVisitor n P I S A)
    (best : Option ℚ) (bv : List (Aabb n)) (data : Option (List (Option A))) :
    SimdBestFirstVisitStatus (A × ClosestPoints P) :=
  match data with
  | some d =>
    match visitLeavesGo g v best (bv.zip d) with
    | .inl (ws, ms, rs) => .MaybeContinue ws ms rs
    | .inr r => .ExitEarly (some r)
  | none =>
    let dist := bv.map (laneScore g v)
    .MaybeContinue dist (dist.map (fun s => ltBest s best)) (List.replicate bv.length none)

/-- State-passing translation of `visit`'s `&mut self` receiver: the source never
writes any field of `self` (the arrays it fills are locals), so the faithful
translation returns the receiver together with the status. -/
def CompositeShapeAgainstShapeClosestPointsVisitor.visit_mut
    {n : ℕ} {P I S A : Type} (g : GeomPrims n P I S)
    (v : CompositeShapeAgainstShapeClosestPointsVisitor n P I S A)
    (best : Option ℚ) (bv : List (Aabb n)) (data : Option (List (Option A))) :
    CompositeShapeAgainstShapeClosestPointsVisitor n P I S A ×
      SimdBestFirstVisitStatus (A × ClosestPoints P) :=
  (v, v.visit g best bv data)

/-- Modelled from the spec: the engine pops the queued entry with the smallest cost
(the best-first discipline); on cost ties the earliest-queued entry wins. -/
def popMin {β : Type} : List (ℚ × β) → Option ((ℚ × β) × List (ℚ × β))
  | [] => none
  | e :: es =>
    match popMin es with
    | none => some (e, [])
    | some (m, rest) => if m.1 < e.1 then some (m, e :: rest) else some (e, es)

/-- Modelled from the spec: the child entries an internal-node visit enqueues — the
lanes whose mask bit is set, queued with their lane weight as cost. -/
def childEntries {n : ℕ} {A : Type} :
    List ℚ → List Bool → List (Aabb n × Qbvh n A) → List (ℚ × Qbvh n A)
  | w :: ws, m :: ms, l :: ls =>
    (if m then [(w, l.2)] else []) ++ childEntries ws ms ls
  | _, _, _ => []

/-- Modelled from the spec: the leaf update of the engine — for each lane whose mask
bit is set, whose weight strictly beats the best cost and whose result is present,
the best cost and best result are replaced by that lane's. -/
def updateBest {R : Type} :
    List ℚ → List Bool → List (Option R) → Option ℚ → Option R → Option ℚ × Option R
  | w :: ws, m :: ms, r :: rs, best, res =>
    if m && ltBest w best && r.isSome then updateBest ws ms rs (some w) r
    else updateBest ws ms rs best res
  | _, _, _, best, res => (best, res)

/-- Modelled from the spec: on an early exit the engine returns the exit payload
when present, otherwise the best result found so far. -/
def orElseRes {R : Type} : Option R → Option R → Option R
  | some x, _ => some x
  | none, res => res

/-- Modelled from the spec: the best-first traversal loop of the engine
(`traverse_best_first`).  It pops the cheapest entry; under pruning (`prune = true`)
an entry whose cost does not strictly beat the best cost is skipped.  An internal
node visit enqueues its masked lanes with their weights; a leaf visit runs the leaf
update; an early exit returns immediately.  `prune = false` is the exhaustive
variant of the spec's pruning-correctness property: every comparison against the
best cost is made against `Real::MAX` (`none`), so no node or lane is ever pruned.
The `fuel` argument makes the recursion structural; every iteration strictly
decreases the total node count of the queue, so `queueFuel` units never run out. -/
def traverseLoop {n : ℕ} {A R : Type} (prune : Bool)
    (vis : Option ℚ → List (Aabb n) → Option (List (Option A)) →
      SimdBestFirstVisitStatus R) :
    ℕ → List (ℚ × Qbvh n A) → Option ℚ → Option R → Option R
  | 0, _, _, res => res
  | fuel + 1, queue, best, res =>
    match popMin queue with
    | none => res
    | some (e, rest) =>
      if prune && !ltBest e.1 best then traverseLoop prune vis fuel rest best res
      else
        match e.2 with
        | .node lanes =>
          match vis (if prune then best else none) (lanes.map Prod.fst) none with
          | .ExitEarly r => orElseRes r res
          | .MaybeContinue ws ms _ =>
            traverseLoop prune vis fuel (rest ++ childEntries ws ms lanes) best res
        | .leaves lanes =>
          match vis (if prune then best else none) (lanes.map Prod.fst)
              (some (lanes.map Prod.snd)) with
          | .ExitEarly r => orElseRes r res
          | .MaybeContinue ws ms rs =>
            let u := updateBest ws ms rs best res
            traverseLoop prune vis fuel rest u.1 u.2

mutual

/-- Total node count of a hierarchy, the termination measure of the engine loop. -/
def qbvhSize {n : ℕ} {A : Type} : Qbvh n A → ℕ
  | .leaves _ => 1
  | .node lanes => 1 + lanesSize lanes

/-- Total node count of an internal node's lane list. -/
def lanesSize {n : ℕ} {A : Type} : List (Aabb n × Qbvh n A) → ℕ
  | [] => 0
  | l :: ls => qbvhSize l.2 + lanesSize ls

end

/-- Total node count of a queue of entries. -/
def queueSize {n : ℕ} {A : Type} : List (ℚ × Qbvh n A) → ℕ
  | [] => 0
  | e :: es => qbvhSize e.2 + queueSize es

/-- Fuel sufficient for the engine loop on a given queue. -/
def queueFuel {n : ℕ} {A : Type} (queue : List (ℚ × Qbvh n A)) : ℕ :=
  queueSize queue + 1

/-- Modelled from the spec: `Qbvh::traverse_best_first` — the pruned best-first
search over the hierarchy, started on the root with the `Real::MAX` best cost and
no result; returns `none` exactly when the search ends with no recorded result. -/
def traverse_best_first {n : ℕ} {A R : Type}
    (vis : Option ℚ → List (Aabb n) → Option (List (Option A)) →
      SimdBestFirstVisitStatus R) (t : Qbvh n A) : Option R :=
  traverseLoop true vis (queueFuel [(0, t)]) [(0, t)] none none

/-- The exhaustive baseline of the spec's pruning-correctness property: the same
engine with the best-first pruning removed, so every node is processed and the
dispatcher is invoked on every leaf part; the running minimum-weight result is
still maintained. -/
def traverse_exhaustive {n : ℕ} {A R : Type}
    (vis : Option ℚ → List (Aabb n) → Option (List (Option A)) →
      SimdBestFirstVisitStatus R) (t : Qbvh n A) : Option R :=
  traverseLoop false vis (queueFuel [(0, t)]) [(0, t)] none none

/-- Top-level query `closest_points_composite_shape_shape`: builds the visitor,
runs the best-first traversal and unwraps the result, turning the `expect` panic of
the source into an `Except` error carrying the source's panic message. -/
def closest_points_composite_shape_shape {n : ℕ} {P I S A : Type}
    (g : GeomPrims n P I S) (dispatcher : QueryDispatcher P I S) (pos12 : I)
    (g1 : TypedSimdCompositeShape n I S A) (g2 : S) (margin : ℚ) :
    Except String (ClosestPoints P) :=
  let visitor :=
    CompositeShapeAgainstShapeClosestPointsVisitor.new g dispatcher pos12 g1 g2 margin
  match traverse_best_first (visitor.visit g) g1.qbvh with
  | some r => .ok r.2
  | none => .error "The composite shape must not be empty."

/-- Top-level query `closest_points_shape_composite_shape`: delegates to
`closest_points_composite_shape_shape` with the inverted pose and the shapes
swapped, flipping the points of the result. -/
def closest_points_shape_composite_shape {n : ℕ} {P I S A : Type}
    (g : GeomPrims n P I S) (dispatcher : QueryDispatcher P I S) (pos12 : I)
    (g1 : S) (g2 : TypedSimdCompositeShape n I S A) (margin : ℚ) :
    Except String (ClosestPoints P) :=
  Except.map ClosestPoints.flipped
    (closest_points_composite_shape_shape g dispatcher (g.inv pos12) g2 g1 margin)

/-! ### Basic lane-level lemmas -/

theorem laneCons_inr {R : Type} (x : LaneOut R)
    (s : (List ℚ × List Bool × List (Option R)) ⊕ R) (r : R) :
    laneCons x s = .inr r ↔ s = .inr r := by
  cases s with
  | inl y => obtain ⟨ws, ms, rs⟩ := y; simp [laneCons]
  | inr y => simp [laneCons]

/-- C2: `closest_points_shape_composite_shape` delegates to
`closest_points_composite_shape_shape` on the inverted pose with the shapes
swapped and flips the result, where `flipped` fixes `Intersecting` and
`Disjoint` and swaps the points of `WithinMargin`. -/
theorem shape_composite_is_flipped_composite_shape
    {n : ℕ} {P I S A : Type} (g : GeomPrims n P I S)
    (dispatcher : QueryDispatcher P I S) (pos12 : I) (g1 : S)
    (g2 : TypedSimdCompositeShape n I S A) (margin : ℚ) :
    closest_points_shape_composite_shape g dispatcher pos12 g1 g2 margin =
      Except.map ClosestPoints.flipped
        (closest_points_composite_shape_shape g dispatcher (g.inv pos12) g2 g1 margin) ∧
    (ClosestPoints.flipped (P := P) .Intersecting = .Intersecting) ∧
    (∀ p q : P, ClosestPoints.flipped (.WithinMargin p q) = .WithinMargin q p) ∧
    (ClosestPoints.flipped (P := P) .Disjoint = .Disjoint) :=
  ⟨rfl, rfl, fun _ _ => rfl, rfl⟩

/-- C9: the visitor constructor computes the second shape's bounding box under the
relative pose once and stores `msum_shift` as the negated center of that box and
`msum_margin` as its half-extents (and keeps the margin it was given). -/
theorem visitor_new_precomputes_msum
    {n : ℕ} {P I S A : Type} (g : GeomPrims n P I S)
    (dispatcher : QueryDispatcher P I S) (pos12 : I)
    (g1 : TypedSimdCompositeShape n I S A) (g2 : S) (margin : ℚ) :
    (CompositeShapeAgainstShapeClosestPointsVisitor.new g dispatcher pos12 g1 g2
        margin).msumShift =
      (fun i => -((g.computeAabb g2 pos12).center i)) ∧
    (CompositeShapeAgainstShapeClosestPointsVisitor.new g dispatcher pos12 g1 g2
        margin).msumMargin =
      (fun i => (g.computeAabb g2 pos12).halfExtents i) ∧
    (CompositeShapeAgainstShapeClosestPointsVisitor.new g dispatcher pos12 g1 g2
        margin).margin = margin :=
  ⟨rfl, rfl, rfl⟩

/-- C10: `visit` takes the visitor by mutable reference but writes none of its
fields; in the state-passing translation the returned visitor is the argument
itself, so every field is preserved and a repeated call with the same best score
and node arguments returns the same status. -/
theorem visit_mut_frame_and_deterministic
    {n : ℕ} {P I S A : Type} (g : GeomPrims n P I S)
    (v : CompositeShapeAgainstShapeClosestPointsVisitor n P I S A)
    (best : Option ℚ) (bv : List (Aabb n)) (data : Option (List (Option A))) :
    (v.visit_mut g best bv data).1 = v ∧
    (v.visit_mut g best bv data).1.msumShift = v.msumShift ∧
    (v.visit_mut g best bv data).1.msumMargin = v.msumMargin ∧
    (v.visit_mut g best bv data).1.margin = v.margin ∧
    (v.visit_mut g best bv data).1.dispatcher = v.dispatcher ∧
    (v.visit_mut g best bv data).1.pos12 = v.pos12 ∧
    (v.visit_mut g best bv data).1.g1 = v.g1 ∧
    (v.visit_mut g best bv data).1.g2 = v.g2 ∧
    (((v.visit_mut g best bv data).1.visit_mut g best bv data).2 =
      (v.visit_mut g best bv data).2) :=
  ⟨rfl, rfl, rfl, rfl, rfl, rfl, rfl, rfl, rfl⟩

/-- C4: on an internal-node visit the per-lane weight is the distance from the
origin to the Minkowski-sum box (mins shifted by `msum_shift` minus `msum_margin`,
maxs shifted by `msum_shift` plus `msum_margin`) and the returned mask keeps a lane
exactly when that score is strictly below the best cost; on a leaf visit a lane
whose score is not strictly below the best cost contributes only the default
weight `0`, mask bit `false` and no result. -/
theorem visit_scores_minkowski_and_mask
    {n : ℕ} {P I S A : Type} (g : GeomPrims n P I S)
    (v : CompositeShapeAgainstShapeClosestPointsVisitor n P I S A)
    (best : Option ℚ) (bv : List (Aabb n)) :
    (v.visit g best bv none =
      .MaybeContinue
        (bv.map (fun b => g.distToOrigin
          { mins := fun i => b.mins i + v.msumShift i + (-(v.msumMargin i))
            maxs := fun i => b.maxs i + v.msumShift i + v.msumMargin i }))
        (bv.map (fun b => ltBest (g.distToOrigin
          { mins := fun i => b.mins i + v.msumShift i + (-(v.msumMargin i))
            maxs := fun i => b.maxs i + v.msumShift i + v.msumMargin i }) best))
        (List.replicate bv.length none)) ∧
    (∀ (b : Aabb n) (od : Option A) (rest : List (Aabb n × Option A)),
      ltBest (laneScore g v b) best = false →
      visitLeavesGo g v best ((b, od) :: rest) =
        laneCons (0, false, none) (visitLeavesGo g v best rest)) := by
  constructor
  · simp [CompositeShapeAgainstShapeClosestPointsVisitor.visit, laneScore, msumAabb,
      List.map_map, Function.comp]
  · intro b od rest h
    cases od with
    | none => rfl
    | some pid => simp [visitLeavesGo, h]

/-- C7: a surviving leaf lane whose dispatcher call returns `WithinMargin(p1, p2)`
records the candidate `(part_id, WithinMargin(part_pos1 · p1, p2))`, sets its mask
bit, and records as weight the distance between the transformed `p1` and
`pos12 · p2`. -/
theorem visit_leaf_within_margin_records
    {n : ℕ} {P I S A : Type} (g : GeomPrims n P I S)
    (v : CompositeShapeAgainstShapeClosestPointsVisitor n P I S A)
    (best : Option ℚ) (b : Aabb n) (pid : A) (p1 p2 : P)
    (rest : List (Aabb n × Option A))
    (hgate : ltBest (laneScore g v b) best = true)
    (hout : partOutcome g v pid = .ok (.WithinMargin p1 p2)) :
    visitLeavesGo g v best ((b, some pid) :: rest) =
      laneCons (laneWeight g v pid p1 p2, true,
          some (pid, .WithinMargin (lanePoint1 g v pid p1) p2))
        (visitLeavesGo g v best rest) ∧
    laneWeight g v pid p1 p2 =
      g.dist (optApply g (v.g1.parts pid).1 p1) (g.apply v.pos12 p2) ∧
    lanePoint1 g v pid p1 = optApply g (v.g1.parts pid).1 p1 := by
  refine ⟨?_, rfl, rfl⟩
  simp [visitLeavesGo, hgate, hout]

/-- C8: a leaf lane whose dispatcher call returns `Disjoint` or fails contributes
only the default weight `0`, mask bit `false` and no result — whether or not the
lane survived the score gate — and the visit simply continues over the remaining
lanes; in particular a dispatch failure never produces an early exit by itself. -/
theorem visit_leaf_disjoint_or_error_drops_lane
    {n : ℕ} {P I S A : Type} (g : GeomPrims n P I S)
    (v : CompositeShapeAgainstShapeClosestPointsVisitor n P I S A)
    (best : Option ℚ) (b : Aabb n) (pid : A)
    (rest : List (Aabb n × Option A))
    (hout : partOutcome g v pid = .ok .Disjoint ∨ ∃ e, partOutcome g v pid = .error e) :
    visitLeavesGo g v best ((b, some pid) :: rest) =
      laneCons (0, false, none) (visitLeavesGo g v best rest) ∧
    (∀ ws ms rs, visitLeavesGo g v best rest = .inl (ws, ms, rs) →
      visitLeavesGo g v best ((b, some pid) :: rest) =
        .inl (0 :: ws, false :: ms, none :: rs)) := by
  have hmain : visitLeavesGo g v best ((b, some pid) :: rest) =
      laneCons (0, false, none) (visitLeavesGo g v best rest) := by
    by_cases hgate : ltBest (laneScore g v b) best = true
    · rcases hout with h | ⟨e, h⟩ <;> simp [visitLeavesGo, hgate, h]
    · simp only [Bool.not_eq_true] at hgate
      simp [visitLeavesGo, hgate]
  refine ⟨hmain, ?_⟩
  intro ws ms rs hrest
  rw [hmain, hrest]
  rfl

/-- A leaf lane that triggers the early exit: it carries a part id, its score
beats the best cost, and the dispatcher reports an intersection. -/
def laneIntersects {n : ℕ} {P I S A : Type} (g : GeomPrims n P I S)
    (v : CompositeShapeAgainstShapeClosestPointsVisitor n P I S A)
    (best : Option ℚ) (lane : Aabb n × Option A) : Prop :=
  ∃ pid, lane.2 = some pid ∧ ltBest (laneScore g v lane.1) best = true ∧
    partOutcome g v pid = .ok .Intersecting

theorem visitLeavesGo_inr_iff {n : ℕ} {P I S A : Type} (g : GeomPrims n P I S)
    (v : CompositeShapeAgainstShapeClosestPointsVisitor n P I S A)
    (best : Option ℚ) :
    ∀ (lanes : List (Aabb n × Option A)) (res : A × ClosestPoints P),
      visitLeavesGo g v best lanes = .inr res ↔
        ∃ l1 b pid l2, lanes = l1 ++ (b, some pid) :: l2 ∧
          ltBest (laneScore g v b) best = true ∧
          partOutcome g v pid = .ok .Intersecting ∧
          res = (pid, .Intersecting) ∧
          ∀ lane ∈ l1, ¬ laneIntersects g v best lane := by
  intro lanes
  induction lanes with
  | nil =>
    intro res
    constructor
    · intro h; exact absurd h (by simp [visitLeavesGo])
    · rintro ⟨l1, b, pid, l2, habs, -⟩
      exact absurd habs (by simp)
  | cons hd tl ih =>
    intro res
    obtain ⟨b0, od0⟩ := hd
    have step : ∀ h : ¬ laneIntersects g v best (b0, od0),
        visitLeavesGo g v best ((b0, od0) :: tl) = .inr res ↔
          visitLeavesGo g v best tl = .inr res := by
      intro h
      cases od0 with
      | none => simp [visitLeavesGo, laneCons_inr]
      | some pid0 =>
        by_cases hg : ltBest (laneScore g v b0) best = true
        · rcases hout : partOutcome g v pid0 with e | c
          · simp [visitLeavesGo, hg, hout, laneCons_inr]
          · cases c with
            | Intersecting => exact absurd ⟨pid0, rfl, hg, hout⟩ h
            | WithinMargin p1 p2 => simp [visitLeavesGo, hg, hout, laneCons_inr]
            | Disjoint => simp [visitLeavesGo, hg, hout, laneCons_inr]
        · simp only [Bool.not_eq_true] at hg
          simp [visitLeavesGo, hg, laneCons_inr]
    by_cases hint : laneIntersects g v best (b0, od0)
    · obtain ⟨pid0, hod, hg, hout⟩ := hint
      simp only at hod
      subst hod
      have hval : visitLeavesGo g v best ((b0, some pid0) :: tl) =
          .inr (pid0, .Intersecting) := by
        simp [visitLeavesGo, hg, hout]
      rw [hval]
      constructor
      · intro h
        refine ⟨[], b0, pid0, tl, rfl, hg, hout, ?_, by simp⟩
        cases h; rfl
      · rintro ⟨l1, b, pid, l2, hsplit, hg', hout', hres, hnone⟩
        cases l1 with
        | nil =>
          simp only [List.nil_append, List.cons.injEq] at hsplit
          obtain ⟨hhd, -⟩ := hsplit
          cases hhd
          subst hres
          rfl
        | cons x l1' =>
          simp only [List.cons_append, List.cons.injEq] at hsplit
          obtain ⟨rfl, -⟩ := hsplit
          exact absurd ⟨pid0, rfl, hg, hout⟩ (hnone _ (by simp))
    · rw [step hint, ih res]
      constructor
      · rintro ⟨l1, b, pid, l2, rfl, hg, hout, hres, hnone⟩
        refine ⟨(b0, od0) :: l1, b, pid, l2, rfl, hg, hout, hres, ?_⟩
        intro lane hl
        rcases List.mem_cons.mp hl with rfl | hl
        · exact hint
        · exact hnone lane hl
      · rintro ⟨l1, b, pid, l2, hsplit, hg, hout, hres, hnone⟩
        cases l1 with
        | nil =>
          simp only [List.nil_append, List.cons.injEq] at hsplit
          obtain ⟨hhd, rfl⟩ := hsplit
          exact absurd ⟨pid, congrArg Prod.snd hhd, hhd ▸ hg, hout⟩ hint
        | cons x l1' =>
          simp only [List.cons_append, List.cons.injEq] at hsplit
          obtain ⟨rfl, rfl⟩ := hsplit
          exact ⟨l1', b, pid, l2, rfl, hg, hout, hres, fun lane hl => hnone lane (by simp [hl])⟩

/-- C5: the visitor returns an early-exit status exactly when some surviving leaf
lane's dispatcher call reports an intersection; the status then carries the first
such lane's part id paired with `Intersecting` (candidates recorded by earlier
lanes are discarded), and an internal-node visit never returns an early exit. -/
theorem visit_exit_early_iff
    {n : ℕ} {P I S A : Type} (g : GeomPrims n P I S)
    (v : CompositeShapeAgainstShapeClosestPointsVisitor n P I S A)
    (best : Option ℚ) (bv : List (Aabb n)) (d : List (Option A)) :
    (∀ r, v.visit g best bv none ≠ .ExitEarly r) ∧
    (∀ r, v.visit g best bv (some d) = .ExitEarly r ↔
      ∃ l1 b pid l2, bv.zip d = l1 ++ (b, some pid) :: l2 ∧
        ltBest (laneScore g v b) best = true ∧
        partOutcome g v pid = .ok .Intersecting ∧
        r = some (pid, .Intersecting) ∧
        ∀ lane ∈ l1, ¬ laneIntersects g v best lane) := by
  constructor
  · intro r h
    simp [CompositeShapeAgainstShapeClosestPointsVisitor.visit] at h
  · intro r
    constructor
    · intro h
      rcases hgo : visitLeavesGo g v best (bv.zip d) with y | res
      · obtain ⟨ws, ms, rs⟩ := y
        rw [CompositeShapeAgainstShapeClosestPointsVisitor.visit, hgo] at h
        cases h
      · rw [CompositeShapeAgainstShapeClosestPointsVisitor.visit, hgo] at h
        cases h
        obtain ⟨l1, b, pid, l2, hs, hg, ho, hres, hn⟩ :=
          (visitLeavesGo_inr_iff g v best (bv.zip d) res).mp hgo
        exact ⟨l1, b, pid, l2, hs, hg, ho, by rw [hres], hn⟩
    · rintro ⟨l1, b, pid, l2, hs, hg, ho, rfl, hn⟩
      have hgo : visitLeavesGo g v best (bv.zip d) = .inr (pid, .Intersecting) :=
        (visitLeavesGo_inr_iff g v best (bv.zip d) (pid, .Intersecting)).mpr
          ⟨l1, b, pid, l2, hs, hg, ho, rfl, hn⟩
      rw [CompositeShapeAgainstShapeClosestPointsVisitor.visit, hgo]

/-! ### Provenance of traversal results -/

theorem laneCons_inl {R : Type} (x : LaneOut R)
    (s : (List ℚ × List Bool × List (Option R)) ⊕ R)
    (ws : List ℚ) (ms : List Bool) (rs : List (Option R)) :
    laneCons x s = .inl (ws, ms, rs) ↔
      ∃ ws' ms' rs', s = .inl (ws', ms', rs') ∧
        ws = x.1 :: ws' ∧ ms = x.2.1 :: ms' ∧ rs = x.2.2 :: rs' := by
  cases s with
  | inl y =>
    obtain ⟨ws', ms', rs'⟩ := y
    constructor
    · intro h
      simp only [laneCons, Sum.inl.injEq, Prod.mk.injEq] at h
      exact ⟨ws', ms', rs', rfl, h.1.symm, h.2.1.symm, h.2.2.symm⟩
    · rintro ⟨a, b, c, hs, rfl, rfl, rfl⟩
      cases hs
      rfl
  | inr y => simp [laneCons]

/-- A result value the visitor can hand to the engine in some visit: the payload
of an early exit, or one of the per-lane results of a continue status. -/
def producedBy {n : ℕ} {A R : Type}
    (vis : Option ℚ → List (Aabb n) → Option (List (Option A)) →
      SimdBestFirstVisitStatus R) (r : R) : Prop :=
  ∃ best bvs d, vis best bvs d = .ExitEarly (some r) ∨
    ∃ ws ms rs, vis best bvs d = .MaybeContinue ws ms rs ∧ some r ∈ rs

theorem updateBest_snd {R : Type} :
    ∀ (ws : List ℚ) (ms : List Bool) (rs : List (Option R))
      (best : Option ℚ) (res : Option R),
      (updateBest ws ms rs best res).2 = res ∨
        ∃ x, (updateBest ws ms rs best res).2 = some x ∧ some x ∈ rs := by
  intro ws
  induction ws with
  | nil => intro ms rs best res; left; rfl
  | cons w ws ih =>
    intro ms rs best res
    cases ms with
    | nil => left; rfl
    | cons m ms =>
      cases rs with
      | nil => left; rfl
      | cons r rs =>
        by_cases hc : (m && ltBest w best && r.isSome) = true
        · rw [updateBest, if_pos hc]
          rcases ih ms rs (some w) r with h | ⟨x, hx, hmem⟩
          · rcases Option.isSome_iff_exists.mp (by
                have := hc; simp only [Bool.and_eq_true] at this; exact this.2) with ⟨x, rfl⟩
            exact Or.inr ⟨x, h, by simp⟩
          · exact Or.inr ⟨x, hx, by simp [hmem]⟩
        · rw [updateBest, if_neg hc]
          rcases ih ms rs best res with h | ⟨x, hx, hmem⟩
          · exact Or.inl h
          · exact Or.inr ⟨x, hx, by simp [hmem]⟩

theorem traverseLoop_result {n : ℕ} {A R : Type} (prune : Bool)
    (vis : Option ℚ → List (Aabb n) → Option (List (Option A)) →
      SimdBestFirstVisitStatus R) :
    ∀ (fuel : ℕ) (queue : List (ℚ × Qbvh n A)) (best : Option ℚ) (res : Option R)
      (r : R), traverseLoop prune vis fuel queue best res = some r →
      res = some r ∨ producedBy vis r := by
  intro fuel
  induction fuel with
  | zero => intro queue best res r h; exact Or.inl h
  | succ fuel ih =>
    intro queue best res r h
    rw [traverseLoop] at h
    rcases hpop : popMin queue with - | ⟨e, rest⟩ <;> simp only [hpop] at h
    · exact Or.inl h
    · by_cases hskip : (prune && !ltBest e.1 best) = true
      · rw [if_pos hskip] at h
        exact ih rest best res r h
      · rw [if_neg hskip] at h
        rcases ht : e.2 with lanes | lanes <;> simp only [ht] at h
        · rcases hv : vis (if prune then best else none) (lanes.map Prod.fst) none
              with r0 | ⟨ws, ms, rs⟩ <;> simp only [hv] at h
          · cases r0 with
            | none => exact Or.inl h
            | some x =>
              cases h
              exact Or.inr ⟨_, _, _, Or.inl hv⟩
          · exact ih _ best res r h
        · rcases hv : vis (if prune then best else none) (lanes.map Prod.fst)
              (some (lanes.map Prod.snd)) with r0 | ⟨ws, ms, rs⟩ <;> simp only [hv] at h
          · cases r0 with
            | none => exact Or.inl h
            | some x =>
              cases h
              exact Or.inr ⟨_, _, _, Or.inl hv⟩
          · rcases ih _ _ _ r h with hu | hp
            · rcases updateBest_snd ws ms rs best res with h2 | ⟨x, hx, hmem⟩
              · exact Or.inl (h2 ▸ hu)
              · rw [hu] at hx
                cases hx
                exact Or.inr ⟨_, _, _, Or.inr ⟨ws, ms, rs, hv, hmem⟩⟩
            · exact Or.inr hp

theorem visitLeavesGo_inl_results {n : ℕ} {P I S A : Type} (g : GeomPrims n P I S)
    (v : CompositeShapeAgainstShapeClosestPointsVisitor n P I S A)
    (best : Option ℚ) :
    ∀ (lanes : List (Aabb n × Option A)) ws ms rs,
      visitLeavesGo g v best lanes = .inl (ws, ms, rs) →
      ∀ r, some r ∈ rs →
        ∃ pid p1 p2, partOutcome g v pid = .ok (.WithinMargin p1 p2) ∧
          r = (pid, .WithinMargin (lanePoint1 g v pid p1) p2) := by
  intro lanes
  induction lanes with
  | nil =>
    intro ws ms rs h r hr
    rw [visitLeavesGo] at h
    cases h
    simp at hr
  | cons hd tl ih =>
    intro ws ms rs h r hr
    obtain ⟨b0, od0⟩ := hd
    have tail_case : ∀ (x : LaneOut (A × ClosestPoints P)),
        visitLeavesGo g v best ((b0, od0) :: tl) =
          laneCons x (visitLeavesGo g v best tl) →
        (x.2.2 = none ∨ ∃ pid p1 p2, partOutcome g v pid = .ok (.WithinMargin p1 p2) ∧
          x.2.2 = some (pid, .WithinMargin (lanePoint1 g v pid p1) p2)) →
        ∃ pid p1 p2, partOutcome g v pid = .ok (.WithinMargin p1 p2) ∧
          r = (pid, .WithinMargin (lanePoint1 g v pid p1) p2) := by
      intro x hx hshape
      rw [hx] at h
      obtain ⟨ws', ms', rs', hs, -, -, hrs⟩ := (laneCons_inl x _ ws ms rs).mp h
      subst hrs
      rcases List.mem_cons.mp hr with hhead | htail
      · rcases hshape with hnone | ⟨pid, p1, p2, hout, hsome⟩
        · rw [hnone] at hhead; cases hhead
        · rw [hsome] at hhead
          cases hhead
          exact ⟨pid, p1, p2, hout, rfl⟩
      · exact ih ws' ms' rs' hs r htail
    cases od0 with
    | none => exact tail_case (0, false, none) rfl (Or.inl rfl)
    | some pid0 =>
      by_cases hg : ltBest (laneScore g v b0) best = true
      · rcases hout : partOutcome g v pid0 with e | c
        · exact tail_case (0, false, none) (by rw [visitLeavesGo, if_pos hg, hout])
            (Or.inl rfl)
        · cases c with
          | Intersecting =>
            rw [visitLeavesGo, if_pos hg, hout] at h
            cases h
          | WithinMargin p1 p2 =>
            exact tail_case (laneWeight g v pid0 p1 p2, true,
                some (pid0, .WithinMargin (lanePoint1 g v pid0 p1) p2))
              (by rw [visitLeavesGo, if_pos hg, hout])
              (Or.inr ⟨pid0, p1, p2, hout, rfl⟩)
          | Disjoint =>
            exact tail_case (0, false, none) (by rw [visitLeavesGo, if_pos hg, hout])
              (Or.inl rfl)
      · simp only [Bool.not_eq_true] at hg
        exact tail_case (0, false, none) (by rw [visitLeavesGo, hg]; rfl) (Or.inl rfl)

theorem visit_produced_shape {n : ℕ} {P I S A : Type} (g : GeomPrims n P I S)
    (v : CompositeShapeAgainstShapeClosestPointsVisitor n P I S A)
    (r : A × ClosestPoints P) (h : producedBy (v.visit g) r) :
    (∃ pid, r = (pid, .Intersecting) ∧ partOutcome g v pid = .ok .Intersecting) ∨
    (∃ pid p1 p2, partOutcome g v pid = .ok (.WithinMargin p1 p2) ∧
      r = (pid, .WithinMargin (lanePoint1 g v pid p1) p2)) := by
  obtain ⟨best, bvs, d, h⟩ := h
  cases d with
  | none =>
    rcases h with h | ⟨ws, ms, rs, h, hmem⟩
    · simp [CompositeShapeAgainstShapeClosestPointsVisitor.visit] at h
    · simp only [CompositeShapeAgainstShapeClosestPointsVisitor.visit] at h
      cases h
      simp [List.mem_replicate] at hmem
  | some d' =>
    rcases hgo : visitLeavesGo g v best (bvs.zip d') with y | res
    · obtain ⟨ws', ms', rs'⟩ := y
      rcases h with h | ⟨ws, ms, rs, h, hmem⟩
      · simp only [CompositeShapeAgainstShapeClosestPointsVisitor.visit, hgo] at h
        exact SimdBestFirstVisitStatus.noConfusion h
      · simp only [CompositeShapeAgainstShapeClosestPointsVisitor.visit, hgo] at h
        cases h
        exact Or.inr (visitLeavesGo_inl_results g v best _ ws' ms' rs' hgo r hmem)
    · rcases h with h | ⟨ws, ms, rs, h, hmem⟩
      · simp only [CompositeShapeAgainstShapeClosestPointsVisitor.visit, hgo,
          SimdBestFirstVisitStatus.ExitEarly.injEq, Option.some.injEq] at h
        obtain ⟨l1, b, pid, l2, -, -, hout, hres, -⟩ :=
          (visitLeavesGo_inr_iff g v best (bvs.zip d') res).mp hgo
        exact Or.inl ⟨pid, h ▸ hres, hout⟩
      · simp only [CompositeShapeAgainstShapeClosestPointsVisitor.visit, hgo] at h
        exact SimdBestFirstVisitStatus.noConfusion h

/-- C6 (amended): every `WithinMargin(q1, q2)` returned by the query originates
from a leaf dispatcher call returning `WithinMargin(p1, p2)`; `q1` is `p1`
expressed in the composite frame (transformed by the part's local pose) while
`q2` is the dispatcher's `p2` kept in the second shape's local frame, untouched;
under the dispatcher's within-margin contract and the isometry laws, the
separation between `q1` and the composite-frame expression `pos12 · q2` is at
most the margin. -/
theorem within_margin_result_frames_and_separation
    {n : ℕ} {P I S A : Type} (g : GeomPrims n P I S)
    (dispatcher : QueryDispatcher P I S) (pos12 : I)
    (g1 : TypedSimdCompositeShape n I S A) (g2 : S) (margin : ℚ) (q1 q2 : P)
    (hq : closest_points_composite_shape_shape g dispatcher pos12 g1 g2 margin =
      .ok (.WithinMargin q1 q2)) :
    ∃ pid p1 p2,
      partOutcome g
          (CompositeShapeAgainstShapeClosestPointsVisitor.new g dispatcher pos12 g1 g2
            margin) pid = .ok (.WithinMargin p1 p2) ∧
      q1 = lanePoint1 g
          (CompositeShapeAgainstShapeClosestPointsVisitor.new g dispatcher pos12 g1 g2
            margin) pid p1 ∧
      q2 = p2 ∧
      ((∀ pos s1 s2 m (pa pb : P), dispatcher pos s1 s2 m = .ok (.WithinMargin pa pb) →
          g.dist pa (g.apply pos pb) ≤ m) →
        (∀ i (pa pb : P), g.dist (g.apply i pa) (g.apply i pb) = g.dist pa pb) →
        (∀ i j (p : P), g.apply i (g.apply (g.invMul i j) p) = g.apply j p) →
        g.dist q1 (g.apply pos12 q2) ≤ margin) := by
  simp only [closest_points_composite_shape_shape] at hq
  rcases htr : traverse_best_first
      ((CompositeShapeAgainstShapeClosestPointsVisitor.new g dispatcher pos12 g1 g2
        margin).visit g) g1.qbvh with - | r
  · simp only [htr] at hq
    exact Except.noConfusion hq
  · simp only [htr, Except.ok.injEq] at hq
    have hr2 : r.2 = .WithinMargin q1 q2 := hq
    have hprod : producedBy
        ((CompositeShapeAgainstShapeClosestPointsVisitor.new g dispatcher pos12 g1 g2
          margin).visit g) r := by
      rcases traverseLoop_result true _ _ _ _ _ r htr with h | h
      · cases h
      · exact h
    rcases visit_produced_shape g _ r hprod with ⟨pid, hre, -⟩ | ⟨pid, p1, p2, hout, hre⟩
    · rw [hre] at hr2; cases hr2
    · rw [hre] at hr2
      have hq1 : q1 = lanePoint1 g
          (CompositeShapeAgainstShapeClosestPointsVisitor.new g dispatcher pos12 g1 g2
            margin) pid p1 := by
        have := congrArg (fun c : ClosestPoints P =>
          match c with | .WithinMargin a _ => a | _ => q1) hr2
        exact this.symm
      have hq2 : q2 = p2 := by
        have := congrArg (fun c : ClosestPoints P =>
          match c with | .WithinMargin _ b => b | _ => q2) hr2
        exact this.symm
      refine ⟨pid, p1, p2, hout, hq1, hq2, ?_⟩
      intro hcontract hinv hgroup
      rw [hq1, hq2]
      simp only [partOutcome, visitorNew_dispatcher, visitorNew_pos12, visitorNew_g1,
        visitorNew_g2, visitorNew_margin] at hout
      simp only [lanePoint1, visitorNew_g1, visitorNew_pos12]
      rcases hpp : (g1.parts pid).1 with - | i
      · rw [hpp] at hout
        simp only [optInvMul] at hout
        simpa [optApply, hpp] using hcontract _ _ _ _ _ _ hout
      · rw [hpp] at hout
        simp only [optInvMul] at hout
        have hbound := hcontract _ _ _ _ _ _ hout
        have hrw : g.apply pos12 p2 = g.apply i (g.apply (g.invMul i pos12) p2) :=
          (hgroup i pos12 p2).symm
        simp only [optApply]
        rw [hrw, hinv]
        exact hbound

/-! ### Pruning correctness: validity of the Minkowski-sum lower bound -/

/-- Validity of a lower-bound value `c` for a part: if the part's dispatcher call
reports `WithinMargin` then `c` is at most the recorded weight, and if it reports
an intersection then `c` is at most `0` (an intersection has true distance `0` and
a box bound is nonnegative).  `Disjoint` and failed parts constrain nothing. -/
def laneBoundOk {n : ℕ} {P I S A : Type} (g : GeomPrims n P I S)
    (v : CompositeShapeAgainstShapeClosestPointsVisitor n P I S A)
    (c : ℚ) (pid : A) : Prop :=
  match partOutcome g v pid with
  | .ok (.WithinMargin p1 p2) => c ≤ laneWeight g v pid p1 p2
  | .ok .Intersecting => c ≤ 0
  | _ => True

mutual

/-- All part ids tagged on the leaves of a hierarchy. -/
def leafPids {n : ℕ} {A : Type} : Qbvh n A → List A
  | .leaves lanes => lanes.filterMap (fun l => l.2)
  | .node lanes => leafPidsLanes lanes

/-- All part ids tagged on the leaves below an internal node's lanes. -/
def leafPidsLanes {n : ℕ} {A : Type} : List (Aabb n × Qbvh n A) → List A
  | [] => []
  | l :: ls => leafPids l.2 ++ leafPidsLanes ls

end

mutual

/-- The hierarchy invariant behind the spec's pruning-correctness property: every
lane's Minkowski-sum score is a valid lower bound for every part below that lane
(for a leaf lane, for its own part). -/
def goodTree {n : ℕ} {P I S A : Type} (g : GeomPrims n P I S)
    (v : CompositeShapeAgainstShapeClosestPointsVisitor n P I S A) :
    Qbvh n A → Prop
  | .leaves lanes => ∀ l ∈ lanes, ∀ pid : A, l.2 = some pid →
      laneBoundOk g v (laneScore g v l.1) pid
  | .node lanes => goodLanes g v lanes

/-- The hierarchy invariant for the lanes of one internal node. -/
def goodLanes {n : ℕ} {P I S A : Type} (g : GeomPrims n P I S)
    (v : CompositeShapeAgainstShapeClosestPointsVisitor n P I S A) :
    List (Aabb n × Qbvh n A) → Prop
  | [] => True
  | l :: ls => (goodTree g v l.2 ∧
      ∀ pid ∈ leafPids l.2, laneBoundOk g v (laneScore g v l.1) pid) ∧
      goodLanes g v ls

end

/-- Every `WithinMargin` outcome of the dispatcher has a strictly positive
recorded weight.  This is the hypothesis the pruned/exhaustive equivalence needs
beyond bound validity: a zero-weight pair drives the best cost to `0`, which can
prune a lane whose subtree holds an intersecting leaf. -/
def withinPositive {n : ℕ} {P I S A : Type} (g : GeomPrims n P I S)
    (v : CompositeShapeAgainstShapeClosestPointsVisitor n P I S A) : Prop :=
  ∀ (pid : A) (p1 p2 : P), partOutcome g v pid = .ok (.WithinMargin p1 p2) →
    0 < laneWeight g v pid p1 p2

/-- A part that can no longer influence the search once the best cost is `be`:
it does not intersect, and a `WithinMargin` outcome has weight at least `be`. -/
def doomedPid {n : ℕ} {P I S A : Type} (g : GeomPrims n P I S)
    (v : CompositeShapeAgainstShapeClosestPointsVisitor n P I S A)
    (be : Option ℚ) (pid : A) : Prop :=
  match partOutcome g v pid with
  | .ok (.WithinMargin p1 p2) => ltBest (laneWeight g v pid p1 p2) be = false
  | .ok .Intersecting => False
  | _ => True

/-- A queued entry all of whose leaf parts are doomed at best cost `be`. -/
def doomedEntry {n : ℕ} {P I S A : Type} (g : GeomPrims n P I S)
    (v : CompositeShapeAgainstShapeClosestPointsVisitor n P I S A)
    (be : Option ℚ) (e : ℚ × Qbvh n A) : Prop :=
  ∀ pid ∈ leafPids e.2, doomedPid g v be pid

/-- A queued entry whose cost is a valid lower bound for every part below it. -/
def entryInv {n : ℕ} {P I S A : Type} (g : GeomPrims n P I S)
    (v : CompositeShapeAgainstShapeClosestPointsVisitor n P I S A)
    (e : ℚ × Qbvh n A) : Prop :=
  goodTree g v e.2 ∧ ∀ pid ∈ leafPids e.2, laneBoundOk g v e.1 pid

/-- Order on best costs, `none` being the top element `Real::MAX`. -/
def leBestOpt (b' b : Option ℚ) : Prop :=
  match b', b with
  | _, none => True
  | none, some _ => False
  | some x, some y => x ≤ y

/-- A best cost that is still strictly positive (`none` counts as positive). -/
def posBest (be : Option ℚ) : Prop :=
  match be with
  | none => True
  | some x => 0 < x

theorem leBestOpt_refl (b : Option ℚ) : leBestOpt b b := by
  cases b <;> simp [leBestOpt]

theorem leBestOpt_trans {a b c : Option ℚ} (h1 : leBestOpt a b) (h2 : leBestOpt b c) :
    leBestOpt a c := by
  cases a <;> cases b <;> cases c <;> simp_all [leBestOpt] <;> exact le_trans h1 h2

theorem ltBest_false_le {w b : ℚ} (h : ltBest w (some b) = false) : b ≤ w := by
  simpa [ltBest, not_lt] using h

theorem ltBest_false_mono {w : ℚ} {b b' : Option ℚ}
    (hle : leBestOpt b' b) (h : ltBest w b = false) : ltBest w b' = false := by
  cases b with
  | none => simp [ltBest] at h
  | some x =>
    cases b' with
    | none => simp [leBestOpt] at hle
    | some y =>
      have hxw : x ≤ w := ltBest_false_le h
      have hyx : y ≤ x := hle
      simp [ltBest, not_lt]
      exact le_trans hyx hxw

theorem ltBest_true_leBestOpt {w : ℚ} {best be : Option ℚ}
    (h : ltBest w best = true) (hle : leBestOpt best be) : leBestOpt (some w) be := by
  cases be with
  | none => trivial
  | some z =>
    cases best with
    | none => simp [leBestOpt] at hle
    | some y =>
      have : w < y := by simpa [ltBest] using h
      exact le_trans this.le hle

theorem updateBest_fst_le {R : Type} :
    ∀ (ws : List ℚ) (ms : List Bool) (rs : List (Option R))
      (best : Option ℚ) (res : Option R),
      leBestOpt (updateBest ws ms rs best res).1 best := by
  intro ws
  induction ws with
  | nil => intro ms rs best res; exact leBestOpt_refl best
  | cons w ws ih =>
    intro ms rs best res
    cases ms with
    | nil => exact leBestOpt_refl best
    | cons m ms =>
      cases rs with
      | nil => exact leBestOpt_refl best
      | cons r rs =>
        by_cases hc : (m && ltBest w best && r.isSome) = true
        · rw [updateBest, if_pos hc]
          have hlt : ltBest w best = true := by
            simp only [Bool.and_eq_true] at hc; exact hc.1.2
          exact leBestOpt_trans (ih ms rs (some w) r)
            (ltBest_true_leBestOpt hlt (leBestOpt_refl best))
        · rw [updateBest, if_neg hc]
          exact ih ms rs best res

/-! ### Queue lemmas -/

theorem popMin_none_iff {β : Type} (l : List (ℚ × β)) :
    popMin l = none ↔ l = [] := by
  cases l with
  | nil => simp [popMin]
  | cons e es =>
    simp only [popMin]
    rcases h : popMin es with - | ⟨m, rest⟩
    · simp
    · by_cases hlt : m.1 < e.1 <;> simp [hlt]

theorem popMin_mem {β : Type} :
    ∀ (l : List (ℚ × β)) (e : ℚ × β) (rest : List (ℚ × β)),
      popMin l = some (e, rest) → e ∈ l := by
  intro l
  induction l with
  | nil => intro e rest h; cases h
  | cons a as ih =>
    intro e rest h
    rw [popMin] at h
    rcases hp : popMin as with - | ⟨m, rest'⟩ <;> simp only [hp] at h
    · simp only [Option.some.injEq, Prod.mk.injEq] at h
      obtain ⟨he, -⟩ := h
      subst he
      exact List.mem_cons_self a as
    · by_cases hlt : m.1 < a.1
      · rw [if_pos hlt] at h
        simp only [Option.some.injEq, Prod.mk.injEq] at h
        obtain ⟨he, -⟩ := h
        subst he
        exact List.mem_cons_of_mem a (ih m rest' hp)
      · rw [if_neg hlt] at h
        simp only [Option.some.injEq, Prod.mk.injEq] at h
        obtain ⟨he, -⟩ := h
        subst he
        exact List.mem_cons_self a as

theorem popMin_min {β : Type} :
    ∀ (l : List (ℚ × β)) (e : ℚ × β) (rest : List (ℚ × β)),
      popMin l = some (e, rest) → ∀ a ∈ l, e.1 ≤ a.1 := by
  intro l
  induction l with
  | nil => intro e rest h; cases h
  | cons a as ih =>
    intro e rest h b hb
    rw [popMin] at h
    rcases hp : popMin as with - | ⟨m, rest'⟩ <;> simp only [hp] at h
    · simp only [Option.some.injEq, Prod.mk.injEq] at h
      obtain ⟨he, -⟩ := h
      subst he
      have has : as = [] := (popMin_none_iff as).mp hp
      subst has
      rcases List.mem_cons.mp hb with rfl | hb
      · exact le_refl _
      · cases hb
    · by_cases hlt : m.1 < a.1
      · rw [if_pos hlt] at h
        simp only [Option.some.injEq, Prod.mk.injEq] at h
        obtain ⟨he, -⟩ := h
        subst he
        rcases List.mem_cons.mp hb with rfl | hb
        · exact hlt.le
        · exact ih m rest' hp b hb
      · rw [if_neg hlt] at h
        simp only [Option.some.injEq, Prod.mk.injEq] at h
        obtain ⟨he, -⟩ := h
        subst he
        rcases List.mem_cons.mp hb with rfl | hb
        · exact le_refl _
        · exact le_trans (not_lt.mp hlt) (ih m rest' hp b hb)

theorem popMin_rest_mem {β : Type} :
    ∀ (l : List (ℚ × β)) (e : ℚ × β) (rest : List (ℚ × β)),
      popMin l = some (e, rest) → ∀ a ∈ rest, a ∈ l := by
  intro l
  induction l with
  | nil => intro e rest h; cases h
  | cons a as ih =>
    intro e rest h b hb
    rw [popMin] at h
    rcases hp : popMin as with - | ⟨m, rest'⟩ <;> simp only [hp] at h
    · simp only [Option.some.injEq, Prod.mk.injEq] at h
      obtain ⟨-, hr⟩ := h
      subst hr
      cases hb
    · by_cases hlt : m.1 < a.1
      · rw [if_pos hlt] at h
        simp only [Option.some.injEq, Prod.mk.injEq] at h
        obtain ⟨-, hr⟩ := h
        subst hr
        rcases List.mem_cons.mp hb with hba | hb
        · rw [hba]; exact List.mem_cons_self _ _
        · exact List.mem_cons_of_mem _ (ih m rest' hp b hb)
      · rw [if_neg hlt] at h
        simp only [Option.some.injEq, Prod.mk.injEq] at h
        obtain ⟨-, hr⟩ := h
        subst hr
        exact List.mem_cons_of_mem _ hb

theorem queueSize_append {n : ℕ} {A : Type} :
    ∀ (a b : List (ℚ × Qbvh n A)), queueSize (a ++ b) = queueSize a + queueSize b := by
  intro a b
  induction a with
  | nil => simp [queueSize]
  | cons e es ih => simp [queueSize, ih]; ring

theorem popMin_size {n : ℕ} {A : Type} :
    ∀ (l : List (ℚ × Qbvh n A)) (e : ℚ × Qbvh n A) (rest : List (ℚ × Qbvh n A)),
      popMin l = some (e, rest) → queueSize l = qbvhSize e.2 + queueSize rest := by
  intro l
  induction l with
  | nil => intro e rest h; cases h
  | cons a as ih =>
    intro e rest h
    rw [popMin] at h
    rcases hp : popMin as with - | ⟨m, rest'⟩ <;> simp only [hp] at h
    · simp only [Option.some.injEq, Prod.mk.injEq] at h
      obtain ⟨he, hr⟩ := h
      subst he
      subst hr
      rw [(popMin_none_iff as).mp hp]
      simp [queueSize]
    · by_cases hlt : m.1 < a.1
      · rw [if_pos hlt] at h
        simp only [Option.some.injEq, Prod.mk.injEq] at h
        obtain ⟨he, hr⟩ := h
        subst he
        subst hr
        have hrec := ih m rest' hp
        simp [queueSize, hrec]
        ring
      · rw [if_neg hlt] at h
        simp only [Option.some.injEq, Prod.mk.injEq] at h
        obtain ⟨he, hr⟩ := h
        subst he
        subst hr
        rfl

theorem childEntries_size {n : ℕ} {A : Type} :
    ∀ (lanes : List (Aabb n × Qbvh n A)) (ws : List ℚ) (ms : List Bool),
      queueSize (childEntries ws ms lanes) ≤ lanesSize lanes := by
  intro lanes
  induction lanes with
  | nil =>
    intro ws ms
    cases ws with
    | nil => simp [childEntries, queueSize]
    | cons w ws =>
      cases ms with
      | nil => simp [childEntries, queueSize]
      | cons m ms => simp [childEntries, queueSize]
  | cons l ls ih =>
    intro ws ms
    cases ws with
    | nil => simp [childEntries, queueSize, lanesSize]
    | cons w ws =>
      cases ms with
      | nil => simp [childEntries, queueSize, lanesSize]
      | cons m ms =>
        rw [childEntries, lanesSize, queueSize_append]
        have h := ih ws ms
        by_cases hm : m = true
        · simp only [hm, if_pos]
          simp [queueSize]
          omega
        · simp only [Bool.not_eq_true] at hm
          simp only [hm, Bool.false_eq_true, if_neg, not_false_iff]
          simp [queueSize]
          omega

/-- The exhaustive engine's queue is an order-preserving interleaving of the
pruned engine's queue (the common entries) with the extra entries only the
exhaustive run carries. -/
inductive MergeQ {n : ℕ} {A : Type} :
    List (ℚ × Qbvh n A) → List (ℚ × Qbvh n A) → List (ℚ × Qbvh n A) → Prop
  | nil : MergeQ [] [] []
  | common (e : ℚ × Qbvh n A) {p x q : List (ℚ × Qbvh n A)} :
      MergeQ p x q → MergeQ (e :: p) x (e :: q)
  | extra (e : ℚ × Qbvh n A) {p x q : List (ℚ × Qbvh n A)} :
      MergeQ p x q → MergeQ p (e :: x) (e :: q)

theorem mergeq_mem_left {n : ℕ} {A : Type}
    {p x q : List (ℚ × Qbvh n A)} (h : MergeQ p x q) :
    ∀ a ∈ p, a ∈ q := by
  induction h with
  | nil => intro a ha; cases ha
  | common e h ih =>
    intro a ha
    rcases List.mem_cons.mp ha with hae | ha
    · rw [hae]; exact List.mem_cons_self _ _
    · exact List.mem_cons_of_mem _ (ih a ha)
  | extra e h ih =>
    intro a ha
    exact List.mem_cons_of_mem _ (ih a ha)

theorem mergeq_mem_extra {n : ℕ} {A : Type}
    {p x q : List (ℚ × Qbvh n A)} (h : MergeQ p x q) :
    ∀ a ∈ x, a ∈ q := by
  induction h with
  | nil => intro a ha; cases ha
  | common e h ih =>
    intro a ha
    exact List.mem_cons_of_mem _ (ih a ha)
  | extra e h ih =>
    intro a ha
    rcases List.mem_cons.mp ha with hae | ha
    · rw [hae]; exact List.mem_cons_self _ _
    · exact List.mem_cons_of_mem _ (ih a ha)

theorem mergeq_nil_queue {n : ℕ} {A : Type}
    {p x : List (ℚ × Qbvh n A)} (h : MergeQ p x []) : p = [] ∧ x = [] := by
  cases h
  exact ⟨rfl, rfl⟩

theorem mergeq_all_extra {n : ℕ} {A : Type} :
    ∀ ys : List (ℚ × Qbvh n A), MergeQ [] ys ys := by
  intro ys
  induction ys with
  | nil => exact .nil
  | cons y ys ih => exact .extra y ih

theorem mergeq_append {n : ℕ} {A : Type}
    {p1 x1 q1 p2 x2 q2 : List (ℚ × Qbvh n A)}
    (h1 : MergeQ p1 x1 q1) (h2 : MergeQ p2 x2 q2) :
    MergeQ (p1 ++ p2) (x1 ++ x2) (q1 ++ q2) := by
  induction h1 with
  | nil => simpa using h2
  | common e h ih => exact .common e ih
  | extra e h ih => exact .extra e ih

theorem mergeq_append_extra {n : ℕ} {A : Type}
    {p x q : List (ℚ × Qbvh n A)} (h : MergeQ p x q)
    (ys : List (ℚ × Qbvh n A)) : MergeQ p (x ++ ys) (q ++ ys) := by
  have := mergeq_append h (mergeq_all_extra ys)
  simpa using this

theorem mergeq_filterMap {n : ℕ} {A α : Type} (pred : α → Bool)
    (h : α → ℚ × Qbvh n A) :
    ∀ lanes : List α,
      MergeQ (lanes.filterMap (fun l => if pred l then some (h l) else none))
        (lanes.filterMap (fun l => if pred l then none else some (h l)))
        (lanes.map h) := by
  intro lanes
  induction lanes with
  | nil => simpa using MergeQ.nil
  | cons l ls ih =>
    by_cases hp : pred l = true
    · simpa [List.filterMap_cons, hp] using MergeQ.common (h l) ih
    · simp only [Bool.not_eq_true] at hp
      simpa [List.filterMap_cons, hp] using MergeQ.extra (h l) ih

theorem mergeq_popMin {n : ℕ} {A : Type} :
    ∀ {p x q : List (ℚ × Qbvh n A)}, MergeQ p x q →
      ∀ {m : ℚ × Qbvh n A} {q' : List (ℚ × Qbvh n A)}, popMin q = some (m, q') →
        (∃ p', popMin p = some (m, p') ∧ MergeQ p' x q') ∨
        (m ∈ x ∧ ∃ x', MergeQ p x' q' ∧ ∀ a ∈ x', a ∈ x) := by
  intro p x q h
  induction h with
  | nil => intro m q' hpop; cases hpop
  | @common e p x q h ih =>
    intro m q' hpop
    rw [popMin] at hpop
    rcases hq : popMin q with - | ⟨m0, rest0⟩ <;> simp only [hq] at hpop
    · simp only [Option.some.injEq, Prod.mk.injEq] at hpop
      obtain ⟨hm, hq'⟩ := hpop
      subst hm
      subst hq'
      have hqnil : q = [] := (popMin_none_iff q).mp hq
      subst hqnil
      obtain ⟨rfl, rfl⟩ := mergeq_nil_queue h
      exact Or.inl ⟨[], rfl, .nil⟩
    · rcases ih hq with ⟨p', hpp, hmq⟩ | ⟨hmx, x', hmq, hsub⟩
      · by_cases hlt : m0.1 < e.1
        · rw [if_pos hlt] at hpop
          simp only [Option.some.injEq, Prod.mk.injEq] at hpop
          obtain ⟨hm, hq'⟩ := hpop
          subst hm
          subst hq'
          refine Or.inl ⟨e :: p', ?_, .common e hmq⟩
          rw [popMin]
          simp only [hpp]
          rw [if_pos hlt]
        · rw [if_neg hlt] at hpop
          simp only [Option.some.injEq, Prod.mk.injEq] at hpop
          obtain ⟨hm, hq'⟩ := hpop
          subst hm
          subst hq'
          refine Or.inl ⟨p, ?_, h⟩
          rw [popMin]
          simp only [hpp]
          rw [if_neg hlt]
      · by_cases hlt : m0.1 < e.1
        · rw [if_pos hlt] at hpop
          simp only [Option.some.injEq, Prod.mk.injEq] at hpop
          obtain ⟨hm, hq'⟩ := hpop
          subst hm
          subst hq'
          exact Or.inr ⟨hmx, x', .common e hmq, hsub⟩
        · rw [if_neg hlt] at hpop
          simp only [Option.some.injEq, Prod.mk.injEq] at hpop
          obtain ⟨hm, hq'⟩ := hpop
          subst hm
          subst hq'
          refine Or.inl ⟨p, ?_, h⟩
          rcases hpp2 : popMin p with - | ⟨m1, rest1⟩
          · have hpnil : p = [] := (popMin_none_iff p).mp hpp2
            subst hpnil
            rfl
          · have hm1q : m1 ∈ q := mergeq_mem_left h m1 (popMin_mem p m1 rest1 hpp2)
            have hmin : m0.1 ≤ m1.1 := popMin_min q m0 rest0 hq m1 hm1q
            rw [popMin]
            simp only [hpp2]
            rw [if_neg (fun hcon => hlt (lt_of_le_of_lt hmin hcon))]
  | @extra e p x q h ih =>
    intro m q' hpop
    rw [popMin] at hpop
    rcases hq : popMin q with - | ⟨m0, rest0⟩ <;> simp only [hq] at hpop
    · simp only [Option.some.injEq, Prod.mk.injEq] at hpop
      obtain ⟨hm, hq'⟩ := hpop
      subst hm
      subst hq'
      have hqnil : q = [] := (popMin_none_iff q).mp hq
      subst hqnil
      obtain ⟨rfl, rfl⟩ := mergeq_nil_queue h
      exact Or.inr ⟨List.mem_cons_self _ _, [], .nil, by intro a ha; cases ha⟩
    · rcases ih hq with ⟨p', hpp, hmq⟩ | ⟨hmx, x', hmq, hsub⟩
      · by_cases hlt : m0.1 < e.1
        · rw [if_pos hlt] at hpop
          simp only [Option.some.injEq, Prod.mk.injEq] at hpop
          obtain ⟨hm, hq'⟩ := hpop
          subst hm
          subst hq'
          exact Or.inl ⟨p', hpp, .extra e hmq⟩
        · rw [if_neg hlt] at hpop
          simp only [Option.some.injEq, Prod.mk.injEq] at hpop
          obtain ⟨hm, hq'⟩ := hpop
          subst hm
          subst hq'
          exact Or.inr ⟨List.mem_cons_self _ _, x, h, fun a ha => List.mem_cons_of_mem _ ha⟩
      · by_cases hlt : m0.1 < e.1
        · rw [if_pos hlt] at hpop
          simp only [Option.some.injEq, Prod.mk.injEq] at hpop
          obtain ⟨hm, hq'⟩ := hpop
          subst hm
          subst hq'
          exact Or.inr ⟨List.mem_cons_of_mem _ hmx, e :: x', .extra e hmq,
            fun a ha => by
              rcases List.mem_cons.mp ha with hae | ha
              · rw [hae]; exact List.mem_cons_self _ _
              · exact List.mem_cons_of_mem _ (hsub a ha)⟩
        · rw [if_neg hlt] at hpop
          simp only [Option.some.injEq, Prod.mk.injEq] at hpop
          obtain ⟨hm, hq'⟩ := hpop
          subst hm
          subst hq'
          exact Or.inr ⟨List.mem_cons_self _ _, x, h, fun a ha => List.mem_cons_of_mem _ ha⟩

/-! ### Hierarchy membership lemmas -/

theorem goodLanes_mem {n : ℕ} {P I S A : Type} {g : GeomPrims n P I S}
    {v : CompositeShapeAgainstShapeClosestPointsVisitor n P I S A} :
    ∀ {lanes : List (Aabb n × Qbvh n A)}, goodLanes g v lanes →
      ∀ {b : Aabb n} {sub : Qbvh n A}, (b, sub) ∈ lanes →
        goodTree g v sub ∧ ∀ pid ∈ leafPids sub, laneBoundOk g v (laneScore g v b) pid := by
  intro lanes
  induction lanes with
  | nil => intro h b sub hmem; cases hmem
  | cons l ls ih =>
    intro h b sub hmem
    rw [goodLanes] at h
    rcases List.mem_cons.mp hmem with heq | hmem
    · have h1 := h.1
      rw [← heq] at h1
      exact h1
    · exact ih h.2 hmem

theorem leafPids_lanes_mem {n : ℕ} {A : Type} :
    ∀ {lanes : List (Aabb n × Qbvh n A)} {b : Aabb n} {sub : Qbvh n A},
      (b, sub) ∈ lanes → ∀ pid ∈ leafPids sub, pid ∈ leafPids (Qbvh.node lanes) := by
  intro lanes
  induction lanes with
  | nil => intro b sub hmem; cases hmem
  | cons l ls ih =>
    intro b sub hmem pid hpid
    rw [leafPids, leafPidsLanes]
    rcases List.mem_cons.mp hmem with heq | hmem
    · refine List.mem_append_left _ ?_
      rw [← heq]
      exact hpid
    · exact List.mem_append_right _ (by
        have := ih hmem pid hpid
        rw [leafPids] at this
        exact this)

theorem leafPids_leaf_mem {n : ℕ} {A : Type}
    {lanes : List (Aabb n × Option A)} {b : Aabb n} {pid : A}
    (h : (b, some pid) ∈ lanes) : pid ∈ leafPids (Qbvh.leaves lanes) := by
  rw [leafPids]
  exact List.mem_filterMap.mpr ⟨(b, some pid), h, rfl⟩

/-! ### Children entries of an internal-node visit -/

theorem childEntries_eq_filterMap {n : ℕ} {A : Type}
    (sc : Aabb n × Qbvh n A → ℚ) (msk : ℚ → Bool) :
    ∀ lanes : List (Aabb n × Qbvh n A),
      childEntries (lanes.map sc) ((lanes.map sc).map msk) lanes =
        lanes.filterMap (fun l => if msk (sc l) then some (sc l, l.2) else none) := by
  intro lanes
  induction lanes with
  | nil => rfl
  | cons l ls ih =>
    rw [List.map_map] at ih
    simp only [List.map_cons, childEntries, List.filterMap_cons]
    by_cases hm : msk (sc l) = true
    · simp [hm, ih]
    · simp only [Bool.not_eq_true] at hm
      simp [hm, ih]

theorem ltBest_none_eq_true (w : ℚ) : ltBest w none = true := rfl

/-! ### Leaf visit comparison lemmas -/

theorem visit_leaves_doomed {n : ℕ} {P I S A : Type} (g : GeomPrims n P I S)
    (v : CompositeShapeAgainstShapeClosestPointsVisitor n P I S A) (be : Option ℚ) :
    ∀ lanes : List (Aabb n × Option A),
      (∀ l ∈ lanes, ∀ pid : A, l.2 = some pid → doomedPid g v be pid) →
      ∃ ws ms rs, visitLeavesGo g v none lanes = .inl (ws, ms, rs) ∧
        ∀ (best : Option ℚ) (res : Option (A × ClosestPoints P)), leBestOpt best be →
          updateBest ws ms rs best res = (best, res) := by
  intro lanes
  induction lanes with
  | nil =>
    intro hall
    exact ⟨[], [], [], rfl, fun best res _ => rfl⟩
  | cons hd tl ih =>
    intro hall
    obtain ⟨b0, od0⟩ := hd
    obtain ⟨ws, ms, rs, hgo, hup⟩ := ih (fun l hl => hall l (List.mem_cons_of_mem _ hl))
    cases od0 with
    | none =>
      refine ⟨0 :: ws, false :: ms, none :: rs, ?_, ?_⟩
      · rw [visitLeavesGo, hgo]; rfl
      · intro best res hle
        rw [updateBest, if_neg (by simp)]
        exact hup best res hle
    | some pid0 =>
      have hdp : doomedPid g v be pid0 := hall (b0, some pid0) (List.mem_cons_self _ _) pid0 rfl
      rcases hout : partOutcome g v pid0 with e | c
      · refine ⟨0 :: ws, false :: ms, none :: rs, ?_, ?_⟩
        · rw [visitLeavesGo, if_pos (ltBest_none_eq_true _), hout, hgo]; rfl
        · intro best res hle
          rw [updateBest, if_neg (by simp)]
          exact hup best res hle
      · cases c with
        | Intersecting =>
          rw [doomedPid, hout] at hdp
          cases hdp
        | WithinMargin p1 p2 =>
          have hwfalse : ltBest (laneWeight g v pid0 p1 p2) be = false := by
            rw [doomedPid, hout] at hdp
            exact hdp
          refine ⟨laneWeight g v pid0 p1 p2 :: ws, true :: ms,
            some (pid0, .WithinMargin (lanePoint1 g v pid0 p1) p2) :: rs, ?_, ?_⟩
          · rw [visitLeavesGo, if_pos (ltBest_none_eq_true _), hout, hgo]; rfl
          · intro best res hle
            rw [updateBest, if_neg (by
              simp only [Bool.and_eq_true, not_and]
              intro h1 _
              rw [ltBest_false_mono hle hwfalse] at h1
              cases h1.2)]
            exact hup best res hle
        | Disjoint =>
          refine ⟨0 :: ws, false :: ms, none :: rs, ?_, ?_⟩
          · rw [visitLeavesGo, if_pos (ltBest_none_eq_true _), hout, hgo]; rfl
          · intro best res hle
            rw [updateBest, if_neg (by simp)]
            exact hup best res hle

theorem visit_leaves_compare {n : ℕ} {P I S A : Type} (g : GeomPrims n P I S)
    (v : CompositeShapeAgainstShapeClosestPointsVisitor n P I S A) (be : Option ℚ) :
    ∀ lanes : List (Aabb n × Option A),
      (∀ l ∈ lanes, ∀ pid : A, l.2 = some pid →
        ltBest (laneScore g v l.1) be = false → doomedPid g v be pid) →
      (∃ r, visitLeavesGo g v be lanes = .inr r ∧ visitLeavesGo g v none lanes = .inr r) ∨
      (∃ wsP msP rsP wsE msE rsE,
        visitLeavesGo g v be lanes = .inl (wsP, msP, rsP) ∧
        visitLeavesGo g v none lanes = .inl (wsE, msE, rsE) ∧
        ∀ (best : Option ℚ) (res : Option (A × ClosestPoints P)), leBestOpt best be →
          updateBest wsE msE rsE best res = updateBest wsP msP rsP best res) := by
  intro lanes
  induction lanes with
  | nil =>
    intro hd
    exact Or.inr ⟨[], [], [], [], [], [], rfl, rfl, fun best res _ => rfl⟩
  | cons hd0 tl ih =>
    intro hd
    obtain ⟨b0, od0⟩ := hd0
    have ihtl := ih (fun l hl => hd l (List.mem_cons_of_mem _ hl))
    cases od0 with
    | none =>
      rcases ihtl with ⟨r, hP, hE⟩ | ⟨wsP, msP, rsP, wsE, msE, rsE, hP, hE, hup⟩
      · refine Or.inl ⟨r, ?_, ?_⟩ <;> simp [visitLeavesGo, hP, hE, laneCons]
      · refine Or.inr ⟨0 :: wsP, false :: msP, none :: rsP,
          0 :: wsE, false :: msE, none :: rsE, ?_, ?_, ?_⟩
        · rw [visitLeavesGo, hP]; rfl
        · rw [visitLeavesGo, hE]; rfl
        · intro best res hle
          rw [updateBest, if_neg (by simp), updateBest, if_neg (by simp)]
          exact hup best res hle
    | some pid0 =>
      by_cases hg : ltBest (laneScore g v b0) be = true
      · rcases hout : partOutcome g v pid0 with e | c
        · rcases ihtl with ⟨r, hP, hE⟩ | ⟨wsP, msP, rsP, wsE, msE, rsE, hP, hE, hup⟩
          · refine Or.inl ⟨r, ?_, ?_⟩
            · rw [visitLeavesGo, if_pos hg, hout, hP]; rfl
            · rw [visitLeavesGo, if_pos (ltBest_none_eq_true _), hout, hE]; rfl
          · refine Or.inr ⟨0 :: wsP, false :: msP, none :: rsP,
              0 :: wsE, false :: msE, none :: rsE, ?_, ?_, ?_⟩
            · rw [visitLeavesGo, if_pos hg, hout, hP]; rfl
            · rw [visitLeavesGo, if_pos (ltBest_none_eq_true _), hout, hE]; rfl
            · intro best res hle
              rw [updateBest, if_neg (by simp), updateBest, if_neg (by simp)]
              exact hup best res hle
        · cases c with
          | Intersecting =>
            refine Or.inl ⟨(pid0, .Intersecting), ?_, ?_⟩
            · rw [visitLeavesGo, if_pos hg, hout]
            · rw [visitLeavesGo, if_pos (ltBest_none_eq_true _), hout]
          | WithinMargin p1 p2 =>
            rcases ihtl with ⟨r, hP, hE⟩ | ⟨wsP, msP, rsP, wsE, msE, rsE, hP, hE, hup⟩
            · refine Or.inl ⟨r, ?_, ?_⟩
              · rw [visitLeavesGo, if_pos hg, hout, hP]; rfl
              · rw [visitLeavesGo, if_pos (ltBest_none_eq_true _), hout, hE]; rfl
            · refine Or.inr ⟨laneWeight g v pid0 p1 p2 :: wsP, true :: msP,
                some (pid0, .WithinMargin (lanePoint1 g v pid0 p1) p2) :: rsP,
                laneWeight g v pid0 p1 p2 :: wsE, true :: msE,
                some (pid0, .WithinMargin (lanePoint1 g v pid0 p1) p2) :: rsE, ?_, ?_, ?_⟩
              · rw [visitLeavesGo, if_pos hg, hout, hP]; rfl
              · rw [visitLeavesGo, if_pos (ltBest_none_eq_true _), hout, hE]; rfl
              · intro best res hle
                by_cases hc : (true && ltBest (laneWeight g v pid0 p1 p2) best &&
                    (some (pid0, ClosestPoints.WithinMargin (lanePoint1 g v pid0 p1)
                      p2)).isSome) = true
                · rw [updateBest, if_pos hc, updateBest, if_pos hc]
                  have hlt : ltBest (laneWeight g v pid0 p1 p2) best = true := by
                    simp only [Bool.and_eq_true] at hc
                    exact hc.1.2
                  exact hup (some (laneWeight g v pid0 p1 p2)) _
                    (ltBest_true_leBestOpt hlt hle)
                · rw [updateBest, if_neg hc, updateBest, if_neg hc]
                  exact hup best res hle
          | Disjoint =>
            rcases ihtl with ⟨r, hP, hE⟩ | ⟨wsP, msP, rsP, wsE, msE, rsE, hP, hE, hup⟩
            · refine Or.inl ⟨r, ?_, ?_⟩
              · rw [visitLeavesGo, if_pos hg, hout, hP]; rfl
              · rw [visitLeavesGo, if_pos (ltBest_none_eq_true _), hout, hE]; rfl
            · refine Or.inr ⟨0 :: wsP, false :: msP, none :: rsP,
                0 :: wsE, false :: msE, none :: rsE, ?_, ?_, ?_⟩
              · rw [visitLeavesGo, if_pos hg, hout, hP]; rfl
              · rw [visitLeavesGo, if_pos (ltBest_none_eq_true _), hout, hE]; rfl
              · intro best res hle
                rw [updateBest, if_neg (by simp), updateBest, if_neg (by simp)]
                exact hup best res hle
      · simp only [Bool.not_eq_true] at hg
        have hdp : ltBest (laneScore g v b0) be = false → doomedPid g v be pid0 :=
          hd (b0, some pid0) (List.mem_cons_self _ _) pid0 rfl
        have hdoom : doomedPid g v be pid0 := hdp hg
        rcases hout : partOutcome g v pid0 with e | c
        · rcases ihtl with ⟨r, hP, hE⟩ | ⟨wsP, msP, rsP, wsE, msE, rsE, hP, hE, hup⟩
          · refine Or.inl ⟨r, ?_, ?_⟩
            · rw [visitLeavesGo, hg, hP]; rfl
            · rw [visitLeavesGo, if_pos (ltBest_none_eq_true _), hout, hE]; rfl
          · refine Or.inr ⟨0 :: wsP, false :: msP, none :: rsP,
              0 :: wsE, false :: msE, none :: rsE, ?_, ?_, ?_⟩
            · rw [visitLeavesGo, hg, hP]; rfl
            · rw [visitLeavesGo, if_pos (ltBest_none_eq_true _), hout, hE]; rfl
            · intro best res hle
              rw [updateBest, if_neg (by simp), updateBest, if_neg (by simp)]
              exact hup best res hle
        · cases c with
          | Intersecting =>
            rw [doomedPid, hout] at hdoom
            cases hdoom
          | WithinMargin p1 p2 =>
            have hwfalse : ltBest (laneWeight g v pid0 p1 p2) be = false := by
              rw [doomedPid, hout] at hdoom
              exact hdoom
            rcases ihtl with ⟨r, hP, hE⟩ | ⟨wsP, msP, rsP, wsE, msE, rsE, hP, hE, hup⟩
            · refine Or.inl ⟨r, ?_, ?_⟩
              · rw [visitLeavesGo, hg, hP]; rfl
              · rw [visitLeavesGo, if_pos (ltBest_none_eq_true _), hout, hE]; rfl
            · refine Or.inr ⟨0 :: wsP, false :: msP, none :: rsP,
                laneWeight g v pid0 p1 p2 :: wsE, true :: msE,
                some (pid0, .WithinMargin (lanePoint1 g v pid0 p1) p2) :: rsE, ?_, ?_, ?_⟩
              · rw [visitLeavesGo, hg, hP]; rfl
              · rw [visitLeavesGo, if_pos (ltBest_none_eq_true _), hout, hE]; rfl
              · intro best res hle
                rw [updateBest, if_neg (by
                  simp only [Bool.and_eq_true, not_and]
                  intro h1 _
                  rw [ltBest_false_mono hle hwfalse] at h1
                  cases h1.2)]
                rw [updateBest, if_neg (by simp)]
                exact hup best res hle
          | Disjoint =>
            rcases ihtl with ⟨r, hP, hE⟩ | ⟨wsP, msP, rsP, wsE, msE, rsE, hP, hE, hup⟩
            · refine Or.inl ⟨r, ?_, ?_⟩
              · rw [visitLeavesGo, hg, hP]; rfl
              · rw [visitLeavesGo, if_pos (ltBest_none_eq_true _), hout, hE]; rfl
            · refine Or.inr ⟨0 :: wsP, false :: msP, none :: rsP,
                0 :: wsE, false :: msE, none :: rsE, ?_, ?_, ?_⟩
              · rw [visitLeavesGo, hg, hP]; rfl
              · rw [visitLeavesGo, if_pos (ltBest_none_eq_true _), hout, hE]; rfl
              · intro best res hle
                rw [updateBest, if_neg (by simp), updateBest, if_neg (by simp)]
                exact hup best res hle

theorem visit_leaves_update_pos {n : ℕ} {P I S A : Type} (g : GeomPrims n P I S)
    (v : CompositeShapeAgainstShapeClosestPointsVisitor n P I S A) (be0 : Option ℚ)
    (hw : withinPositive g v) :
    ∀ (lanes : List (Aabb n × Option A)) ws ms rs,
      visitLeavesGo g v be0 lanes = .inl (ws, ms, rs) →
      ∀ (best : Option ℚ) (res : Option (A × ClosestPoints P)), posBest best →
        posBest (updateBest ws ms rs best res).1 := by
  intro lanes
  induction lanes with
  | nil =>
    intro ws ms rs hgo best res hpos
    rw [visitLeavesGo] at hgo
    cases hgo
    exact hpos
  | cons hd tl ih =>
    intro ws ms rs hgo best res hpos
    obtain ⟨b0, od0⟩ := hd
    have hdefault : ∀ (x : LaneOut (A × ClosestPoints P)),
        visitLeavesGo g v be0 ((b0, od0) :: tl) = laneCons x (visitLeavesGo g v be0 tl) →
        (x.2.1 = false ∨ (x.2.1 = true ∧ 0 < x.1)) →
        posBest (updateBest ws ms rs best res).1 := by
      intro x hx hxok
      rw [hx] at hgo
      obtain ⟨ws', ms', rs', hs, hws, hms, hrs⟩ := (laneCons_inl x _ ws ms rs).mp hgo
      subst hws
      subst hms
      subst hrs
      rcases hxok with hfalse | ⟨htrue, hposx⟩
      · rw [updateBest, if_neg (by simp [hfalse])]
        exact ih ws' ms' rs' hs best res hpos
      · by_cases hc : (x.2.1 && ltBest x.1 best && x.2.2.isSome) = true
        · rw [updateBest, if_pos hc]
          exact ih ws' ms' rs' hs (some x.1) x.2.2 hposx
        · rw [updateBest, if_neg hc]
          exact ih ws' ms' rs' hs best res hpos
    cases od0 with
    | none => exact hdefault (0, false, none) rfl (Or.inl rfl)
    | some pid0 =>
      by_cases hg : ltBest (laneScore g v b0) be0 = true
      · rcases hout : partOutcome g v pid0 with e | c
        · exact hdefault (0, false, none) (by rw [visitLeavesGo, if_pos hg, hout])
            (Or.inl rfl)
        · cases c with
          | Intersecting =>
            rw [visitLeavesGo, if_pos hg, hout] at hgo
            cases hgo
          | WithinMargin p1 p2 =>
            exact hdefault (laneWeight g v pid0 p1 p2, true,
                some (pid0, .WithinMargin (lanePoint1 g v pid0 p1) p2))
              (by rw [visitLeavesGo, if_pos hg, hout])
              (Or.inr ⟨rfl, hw pid0 p1 p2 hout⟩)
          | Disjoint =>
            exact hdefault (0, false, none) (by rw [visitLeavesGo, if_pos hg, hout])
              (Or.inl rfl)
      · simp only [Bool.not_eq_true] at hg
        exact hdefault (0, false, none) (by rw [visitLeavesGo, hg]; rfl) (Or.inl rfl)

/-! ### Engine stepping lemmas -/

theorem traverseLoop_step_none {n : ℕ} {A R : Type} (prune : Bool)
    (vis : Option ℚ → List (Aabb n) → Option (List (Option A)) →
      SimdBestFirstVisitStatus R)
    (fuel : ℕ) {queue : List (ℚ × Qbvh n A)} (best : Option ℚ) (res : Option R)
    (h : popMin queue = none) :
    traverseLoop prune vis (fuel + 1) queue best res = res := by
  rw [traverseLoop]
  simp only [h]

theorem traverseLoop_step_skip {n : ℕ} {A R : Type} {prune : Bool}
    {vis : Option ℚ → List (Aabb n) → Option (List (Option A)) →
      SimdBestFirstVisitStatus R}
    (fuel : ℕ) {queue : List (ℚ × Qbvh n A)} {best : Option ℚ} (res : Option R)
    {e : ℚ × Qbvh n A} {rest : List (ℚ × Qbvh n A)}
    (h : popMin queue = some (e, rest))
    (hskip : (prune && !ltBest e.1 best) = true) :
    traverseLoop prune vis (fuel + 1) queue best res =
      traverseLoop prune vis fuel rest best res := by
  rw [traverseLoop]
  simp only [h]
  rw [if_pos hskip]

theorem traverseLoop_step_node {n : ℕ} {A R : Type} {prune : Bool}
    {vis : Option ℚ → List (Aabb n) → Option (List (Option A)) →
      SimdBestFirstVisitStatus R}
    (fuel : ℕ) {queue : List (ℚ × Qbvh n A)} {best : Option ℚ} (res : Option R)
    {e : ℚ × Qbvh n A} {rest : List (ℚ × Qbvh n A)}
    {lanes : List (Aabb n × Qbvh n A)} {ws : List ℚ} {ms : List Bool}
    {rs : List (Option R)}
    (h : popMin queue = some (e, rest))
    (hnoskip : (prune && !ltBest e.1 best) = false)
    (ht : e.2 = .node lanes)
    (hv : vis (if prune then best else none) (lanes.map Prod.fst) none =
      .MaybeContinue ws ms rs) :
    traverseLoop prune vis (fuel + 1) queue best res =
      traverseLoop prune vis fuel (rest ++ childEntries ws ms lanes) best res := by
  rw [traverseLoop]
  simp only [h]
  rw [if_neg (by simp [hnoskip])]
  simp only [ht, hv]

theorem traverseLoop_step_node_exit {n : ℕ} {A R : Type} {prune : Bool}
    {vis : Option ℚ → List (Aabb n) → Option (List (Option A)) →
      SimdBestFirstVisitStatus R}
    (fuel : ℕ) {queue : List (ℚ × Qbvh n A)} {best : Option ℚ} (res : Option R)
    {e : ℚ × Qbvh n A} {rest : List (ℚ × Qbvh n A)}
    {lanes : List (Aabb n × Qbvh n A)} {r0 : Option R}
    (h : popMin queue = some (e, rest))
    (hnoskip : (prune && !ltBest e.1 best) = false)
    (ht : e.2 = .node lanes)
    (hv : vis (if prune then best else none) (lanes.map Prod.fst) none =
      .ExitEarly r0) :
    traverseLoop prune vis (fuel + 1) queue best res = orElseRes r0 res := by
  rw [traverseLoop]
  simp only [h]
  rw [if_neg (by simp [hnoskip])]
  simp only [ht, hv]

theorem traverseLoop_step_leaves {n : ℕ} {A R : Type} {prune : Bool}
    {vis : Option ℚ → List (Aabb n) → Option (List (Option A)) →
      SimdBestFirstVisitStatus R}
    (fuel : ℕ) {queue : List (ℚ × Qbvh n A)} {best : Option ℚ} (res : Option R)
    {e : ℚ × Qbvh n A} {rest : List (ℚ × Qbvh n A)}
    {lanes : List (Aabb n × Option A)} {ws : List ℚ} {ms : List Bool}
    {rs : List (Option R)}
    (h : popMin queue = some (e, rest))
    (hnoskip : (prune && !ltBest e.1 best) = false)
    (ht : e.2 = .leaves lanes)
    (hv : vis (if prune then best else none) (lanes.map Prod.fst)
      (some (lanes.map Prod.snd)) = .MaybeContinue ws ms rs) :
    traverseLoop prune vis (fuel + 1) queue best res =
      traverseLoop prune vis fuel rest (updateBest ws ms rs best res).1
        (updateBest ws ms rs best res).2 := by
  rw [traverseLoop]
  simp only [h]
  rw [if_neg (by simp [hnoskip])]
  simp only [ht, hv]

theorem traverseLoop_step_leaves_exit {n : ℕ} {A R : Type} {prune : Bool}
    {vis : Option ℚ → List (Aabb n) → Option (List (Option A)) →
      SimdBestFirstVisitStatus R}
    (fuel : ℕ) {queue : List (ℚ × Qbvh n A)} {best : Option ℚ} (res : Option R)
    {e : ℚ × Qbvh n A} {rest : List (ℚ × Qbvh n A)}
    {lanes : List (Aabb n × Option A)} {r0 : Option R}
    (h : popMin queue = some (e, rest))
    (hnoskip : (prune && !ltBest e.1 best) = false)
    (ht : e.2 = .leaves lanes)
    (hv : vis (if prune then best else none) (lanes.map Prod.fst)
      (some (lanes.map Prod.snd)) = .ExitEarly r0) :
    traverseLoop prune vis (fuel + 1) queue best res = orElseRes r0 res := by
  rw [traverseLoop]
  simp only [h]
  rw [if_neg (by simp [hnoskip])]
  simp only [ht, hv]

/-! ### Doomed entries -/

theorem ltBest_false_of_le {c w : ℚ} {be : Option ℚ}
    (hcw : c ≤ w) (h : ltBest c be = false) : ltBest w be = false := by
  cases be with
  | none => simp [ltBest] at h
  | some x =>
    have : x ≤ c := ltBest_false_le h
    simp [ltBest, not_lt]
    exact le_trans this hcw

theorem doomedPid_of_bound_not_lt {n : ℕ} {P I S A : Type} {g : GeomPrims n P I S}
    {v : CompositeShapeAgainstShapeClosestPointsVisitor n P I S A}
    {be : Option ℚ} {c : ℚ} {pid : A}
    (hb : laneBoundOk g v c pid) (hck : ltBest c be = false) (hpos : posBest be) :
    doomedPid g v be pid := by
  rw [laneBoundOk] at hb
  rw [doomedPid]
  rcases hout : partOutcome g v pid with e | cp <;> rw [hout] at hb
  · trivial
  · cases cp with
    | Intersecting =>
      cases be with
      | none => simp [ltBest] at hck
      | some x =>
        have hxc : x ≤ c := ltBest_false_le hck
        have hx : (0 : ℚ) < x := hpos
        exact absurd (le_trans hxc hb) (not_le.mpr hx)
    | WithinMargin p1 p2 => exact ltBest_false_of_le hb hck
    | Disjoint => trivial

theorem doomedPid_mono {n : ℕ} {P I S A : Type} {g : GeomPrims n P I S}
    {v : CompositeShapeAgainstShapeClosestPointsVisitor n P I S A}
    {be be' : Option ℚ} {pid : A}
    (hle : leBestOpt be' be) (h : doomedPid g v be pid) : doomedPid g v be' pid := by
  rw [doomedPid] at h ⊢
  rcases hout : partOutcome g v pid with e | cp <;> rw [hout] at h
  · trivial
  · cases cp with
    | Intersecting => exact h
    | WithinMargin p1 p2 => exact ltBest_false_mono hle h
    | Disjoint => trivial

theorem doomedEntry_mono {n : ℕ} {P I S A : Type} {g : GeomPrims n P I S}
    {v : CompositeShapeAgainstShapeClosestPointsVisitor n P I S A}
    {be be' : Option ℚ} {e : ℚ × Qbvh n A}
    (hle : leBestOpt be' be) (h : doomedEntry g v be e) : doomedEntry g v be' e :=
  fun pid hpid => doomedPid_mono hle (h pid hpid)

/-! ### The pruned / exhaustive simulation -/

theorem zipFstSnd {α β : Type} (l : List (α × β)) :
    (l.map Prod.fst).zip (l.map Prod.snd) = l :=
  (List.zip_of_prod rfl rfl).symm

theorem visit_internal_eq {n : ℕ} {P I S A : Type} (g : GeomPrims n P I S)
    (v : CompositeShapeAgainstShapeClosestPointsVisitor n P I S A)
    (best : Option ℚ) (bv : List (Aabb n)) :
    v.visit g best bv none =
      .MaybeContinue (bv.map (laneScore g v))
        ((bv.map (laneScore g v)).map (fun s => ltBest s best))
        (List.replicate bv.length none) := rfl

theorem visit_leaf_eq_inl {n : ℕ} {P I S A : Type} (g : GeomPrims n P I S)
    (v : CompositeShapeAgainstShapeClosestPointsVisitor n P I S A)
    (best : Option ℚ) (lanes : List (Aabb n × Option A))
    {ws : List ℚ} {ms : List Bool} {rs : List (Option (A × ClosestPoints P))}
    (h : visitLeavesGo g v best lanes = .inl (ws, ms, rs)) :
    v.visit g best (lanes.map Prod.fst) (some (lanes.map Prod.snd)) =
      .MaybeContinue ws ms rs := by
  rw [CompositeShapeAgainstShapeClosestPointsVisitor.visit]
  rw [zipFstSnd, h]

theorem visit_leaf_eq_inr {n : ℕ} {P I S A : Type} (g : GeomPrims n P I S)
    (v : CompositeShapeAgainstShapeClosestPointsVisitor n P I S A)
    (best : Option ℚ) (lanes : List (Aabb n × Option A))
    {r : A × ClosestPoints P}
    (h : visitLeavesGo g v best lanes = .inr r) :
    v.visit g best (lanes.map Prod.fst) (some (lanes.map Prod.snd)) =
      .ExitEarly (some r) := by
  rw [CompositeShapeAgainstShapeClosestPointsVisitor.visit]
  rw [zipFstSnd, h]

theorem filterMap_some_eq_map {α β : Type} (f : α → β) :
    ∀ l : List α, l.filterMap (fun a => some (f a)) = l.map f := by
  intro l
  induction l with
  | nil => rfl
  | cons a as ih => simp [List.filterMap_cons, ih]

theorem node_children_eq {n : ℕ} {P I S A : Type} (g : GeomPrims n P I S)
    (v : CompositeShapeAgainstShapeClosestPointsVisitor n P I S A)
    (best : Option ℚ) (lanes : List (Aabb n × Qbvh n A)) :
    childEntries ((lanes.map Prod.fst).map (laneScore g v))
      (((lanes.map Prod.fst).map (laneScore g v)).map (fun s => ltBest s best)) lanes =
      lanes.filterMap (fun l => if ltBest (laneScore g v l.1) best then
        some (laneScore g v l.1, l.2) else none) := by
  have h := childEntries_eq_filterMap (fun l => laneScore g v l.1)
    (fun s => ltBest s best) lanes
  simpa [List.map_map, Function.comp] using h

theorem node_children_exhaustive {n : ℕ} {P I S A : Type} (g : GeomPrims n P I S)
    (v : CompositeShapeAgainstShapeClosestPointsVisitor n P I S A)
    (lanes : List (Aabb n × Qbvh n A)) :
    childEntries ((lanes.map Prod.fst).map (laneScore g v))
      (((lanes.map Prod.fst).map (laneScore g v)).map (fun s => ltBest s none)) lanes =
      lanes.map (fun l => (laneScore g v l.1, l.2)) := by
  rw [node_children_eq]
  simp only [ltBest, if_pos]
  exact filterMap_some_eq_map _ lanes

theorem node_children_merge {n : ℕ} {P I S A : Type} (g : GeomPrims n P I S)
    (v : CompositeShapeAgainstShapeClosestPointsVisitor n P I S A)
    (best : Option ℚ) (lanes : List (Aabb n × Qbvh n A)) :
    MergeQ
      (lanes.filterMap (fun l => if ltBest (laneScore g v l.1) best then
        some (laneScore g v l.1, l.2) else none))
      (lanes.filterMap (fun l => if ltBest (laneScore g v l.1) best then
        none else some (laneScore g v l.1, l.2)))
      (lanes.map (fun l => (laneScore g v l.1, l.2))) := by
  induction lanes with
  | nil => simpa using MergeQ.nil
  | cons l ls ih =>
    by_cases hp : ltBest (laneScore g v l.1) best = true
    · simpa [List.filterMap_cons, hp] using MergeQ.common (laneScore g v l.1, l.2) ih
    · simp only [Bool.not_eq_true] at hp
      simpa [List.filterMap_cons, hp] using MergeQ.extra (laneScore g v l.1, l.2) ih

set_option maxHeartbeats 2000000 in
/-- The simulation between the exhaustive run and the pruned run: with equal best
cost and result, with the exhaustive queue an interleaving of the pruned queue and
doomed extras, and with every queued entry carrying valid bounds, the two runs
return the same result. -/
theorem traverse_sim {n : ℕ} {P I S A : Type} (g : GeomPrims n P I S)
    (v : CompositeShapeAgainstShapeClosestPointsVisitor n P I S A)
    (hw : withinPositive g v) :
    ∀ fe : ℕ, ∀ (Qe Qp X : List (ℚ × Qbvh n A)) (be : Option ℚ)
      (res : Option (A × ClosestPoints P)),
      queueSize Qe < fe →
      MergeQ Qp X Qe →
      (∀ e ∈ Qe, entryInv g v e) →
      (∀ e ∈ X, doomedEntry g v be e) →
      posBest be →
      ∀ fp : ℕ, queueSize Qp < fp →
      traverseLoop false (v.visit g) fe Qe be res =
        traverseLoop true (v.visit g) fp Qp be res := by
  intro fe
  induction fe with
  | zero => intro Qe Qp X be res hfe; omega
  | succ fe ih =>
    intro Qe Qp X be res hfe hmerge hinv hdoom hpos fp0 hfp0
    cases fp0 with
    | zero => omega
    | succ fp =>
    rcases hpop : popMin Qe with - | ⟨⟨c, t⟩, rest_e⟩
    · have hQe : Qe = [] := (popMin_none_iff _).mp hpop
      subst hQe
      obtain ⟨rfl, rfl⟩ := mergeq_nil_queue hmerge
      rfl
    · have hsize_e : queueSize Qe = qbvhSize t + queueSize rest_e :=
        popMin_size Qe (c, t) rest_e hpop
      have hmem_e : (c, t) ∈ Qe := popMin_mem Qe (c, t) rest_e hpop
      have hinv_ct : entryInv g v (c, t) := hinv (c, t) hmem_e
      have hinv_rest : ∀ e ∈ rest_e, entryInv g v e :=
        fun e he => hinv e (popMin_rest_mem Qe (c, t) rest_e hpop e he)
      have hqpos : 1 ≤ qbvhSize t := by
        cases t <;> simp [qbvhSize]
      rcases mergeq_popMin hmerge hpop with ⟨p', hpp, hmq⟩ | ⟨hmx, x', hmq, hsub⟩
      · -- the popped entry is common to both queues
        have hsize_p : queueSize Qp = qbvhSize t + queueSize p' :=
          popMin_size Qp (c, t) p' hpp
        by_cases hck : ltBest c be = true
        · -- processed by both runs
          have hnoskipP : (true && !ltBest (c, t).1 be) = false := by simp [hck]
          rcases ht : t with lanes | lanes
          · -- internal node
            rw [traverseLoop_step_node fe res hpop (by simp) (by rw [ht])
              (visit_internal_eq g v none (lanes.map Prod.fst))]
            rw [traverseLoop_step_node fp res hpp hnoskipP (by rw [ht])
              (visit_internal_eq g v be (lanes.map Prod.fst))]
            rw [node_children_eq g v none, node_children_eq g v be]
            have hgl : goodLanes g v lanes := by
              have := hinv_ct.1
              rw [ht] at this
              exact this
            have hchE : lanes.filterMap (fun l => if ltBest (laneScore g v l.1) none
                then some (laneScore g v l.1, l.2) else none) =
                lanes.map (fun l => (laneScore g v l.1, l.2)) := by
              simp only [ltBest, if_pos]
              exact filterMap_some_eq_map _ lanes
            rw [hchE]
            refine ih (rest_e ++ lanes.map (fun l => (laneScore g v l.1, l.2)))
              (p' ++ lanes.filterMap (fun l => if ltBest (laneScore g v l.1) be then
                some (laneScore g v l.1, l.2) else none))
              (X ++ lanes.filterMap (fun l => if ltBest (laneScore g v l.1) be then
                none else some (laneScore g v l.1, l.2)))
              be res ?_ ?_ ?_ ?_ hpos fp ?_
            · rw [queueSize_append]
              have h1 : queueSize (lanes.map (fun l => (laneScore g v l.1, l.2))) ≤
                  lanesSize lanes := by
                have := childEntries_size lanes
                  ((lanes.map Prod.fst).map (laneScore g v))
                  (((lanes.map Prod.fst).map (laneScore g v)).map (fun s => ltBest s none))
                rw [node_children_exhaustive] at this
                exact this
              have h2 : qbvhSize t = 1 + lanesSize lanes := by rw [ht, qbvhSize]
              omega
            · exact mergeq_append hmq (node_children_merge g v be lanes)
            · intro e he
              rcases List.mem_append.mp he with he | he
              · exact hinv_rest e he
              · obtain ⟨l, hl, hle⟩ := List.mem_map.mp he
                obtain ⟨lb, lsub⟩ := l
                obtain ⟨hgt, hbd⟩ := goodLanes_mem hgl hl
                rw [← hle]
                exact ⟨hgt, hbd⟩
            · intro e he
              rcases List.mem_append.mp he with he | he
              · exact hdoom e he
              · obtain ⟨l, hl, hcond⟩ := List.mem_filterMap.mp he
                by_cases hml : ltBest (laneScore g v l.1) be = true
                · rw [if_pos hml] at hcond
                  cases hcond
                · simp only [Bool.not_eq_true] at hml
                  rw [if_neg (by simp [hml])] at hcond
                  have he2 : e = (laneScore g v l.1, l.2) := by
                    cases hcond
                    rfl
                  subst he2
                  intro pid hpid
                  obtain ⟨lb, lsub⟩ := l
                  obtain ⟨hgt, hbd⟩ := goodLanes_mem hgl hl
                  exact doomedPid_of_bound_not_lt (hbd pid hpid) hml hpos
            · rw [queueSize_append]
              have h1 : queueSize (lanes.filterMap (fun l =>
                  if ltBest (laneScore g v l.1) be then
                    some (laneScore g v l.1, l.2) else none)) ≤ lanesSize lanes := by
                have := childEntries_size lanes
                  ((lanes.map Prod.fst).map (laneScore g v))
                  (((lanes.map Prod.fst).map (laneScore g v)).map (fun s => ltBest s be))
                rw [node_children_eq] at this
                exact this
              have h2 : qbvhSize t = 1 + lanesSize lanes := by rw [ht, qbvhSize]
              omega
          · -- leaf node
            have hgt : goodTree g v (Qbvh.leaves lanes) := by
              have := hinv_ct.1
              rw [ht] at this
              exact this
            have hd : ∀ l ∈ lanes, ∀ pid : A, l.2 = some pid →
                ltBest (laneScore g v l.1) be = false → doomedPid g v be pid := by
              intro l hl pid hlp hfalse
              rw [goodTree] at hgt
              exact doomedPid_of_bound_not_lt (hgt l hl pid hlp) hfalse hpos
            rcases visit_leaves_compare g v be lanes hd with
              ⟨r, hP, hE⟩ | ⟨wsP, msP, rsP, wsE, msE, rsE, hP, hE, hup⟩
            · rw [traverseLoop_step_leaves_exit fe res hpop (by simp) (by rw [ht])
                (visit_leaf_eq_inr g v none lanes hE)]
              rw [traverseLoop_step_leaves_exit fp res hpp hnoskipP (by rw [ht])
                (visit_leaf_eq_inr g v be lanes hP)]
            · rw [traverseLoop_step_leaves fe res hpop (by simp) (by rw [ht])
                (visit_leaf_eq_inl g v none lanes hE)]
              rw [traverseLoop_step_leaves fp res hpp hnoskipP (by rw [ht])
                (visit_leaf_eq_inl g v be lanes hP)]
              rw [hup be res (leBestOpt_refl be)]
              have hle' : leBestOpt (updateBest wsP msP rsP be res).1 be :=
                updateBest_fst_le wsP msP rsP be res
              refine ih rest_e p' X (updateBest wsP msP rsP be res).1
                (updateBest wsP msP rsP be res).2 ?_ hmq hinv_rest ?_ ?_ fp ?_
              · omega
              · intro e he
                exact doomedEntry_mono hle' (hdoom e he)
              · exact visit_leaves_update_pos g v be hw lanes wsP msP rsP hP be res hpos
              · omega
        · -- skipped by the pruned run, processed (without effect) by the exhaustive run
          simp only [Bool.not_eq_true] at hck
          have hdall : ∀ pid ∈ leafPids t, doomedPid g v be pid := by
            intro pid hpid
            exact doomedPid_of_bound_not_lt (hinv_ct.2 pid hpid) hck hpos
          rw [traverseLoop_step_skip fp res hpp (by simp [hck])]
          rcases ht : t with lanes | lanes
          · rw [traverseLoop_step_node fe res hpop (by simp) (by rw [ht])
              (visit_internal_eq g v none (lanes.map Prod.fst))]
            rw [node_children_eq g v none]
            have hchE : lanes.filterMap (fun l => if ltBest (laneScore g v l.1) none
                then some (laneScore g v l.1, l.2) else none) =
                lanes.map (fun l => (laneScore g v l.1, l.2)) := by
              simp only [ltBest, if_pos]
              exact filterMap_some_eq_map _ lanes
            rw [hchE]
            have hgl : goodLanes g v lanes := by
              have := hinv_ct.1
              rw [ht] at this
              exact this
            refine ih (rest_e ++ lanes.map (fun l => (laneScore g v l.1, l.2)))
              p' (X ++ lanes.map (fun l => (laneScore g v l.1, l.2))) be res ?_ ?_ ?_ ?_
              hpos fp ?_
            · rw [queueSize_append]
              have h1 : queueSize (lanes.map (fun l => (laneScore g v l.1, l.2))) ≤
                  lanesSize lanes := by
                have := childEntries_size lanes
                  ((lanes.map Prod.fst).map (laneScore g v))
                  (((lanes.map Prod.fst).map (laneScore g v)).map (fun s => ltBest s none))
                rw [node_children_exhaustive] at this
                exact this
              have h2 : qbvhSize t = 1 + lanesSize lanes := by rw [ht, qbvhSize]
              omega
            · exact mergeq_append_extra hmq _
            · intro e he
              rcases List.mem_append.mp he with he | he
              · exact hinv_rest e he
              · obtain ⟨l, hl, hle⟩ := List.mem_map.mp he
                obtain ⟨lb, lsub⟩ := l
                obtain ⟨hgt, hbd⟩ := goodLanes_mem hgl hl
                rw [← hle]
                exact ⟨hgt, hbd⟩
            · intro e he
              rcases List.mem_append.mp he with he | he
              · exact hdoom e he
              · obtain ⟨l, hl, hle⟩ := List.mem_map.mp he
                rw [← hle]
                intro pid hpid
                refine hdall pid ?_
                rw [ht]
                obtain ⟨l1, l2⟩ := l
                exact leafPids_lanes_mem hl pid hpid
            · omega
          · have hall : ∀ l ∈ lanes, ∀ pid : A, l.2 = some pid →
                doomedPid g v be pid := by
              intro l hl pid hlp
              refine hdall pid ?_
              rw [ht]
              obtain ⟨l1, l2⟩ := l
              simp only at hlp
              subst hlp
              exact leafPids_leaf_mem hl
            obtain ⟨ws, ms, rs, hgo, hup⟩ := visit_leaves_doomed g v be lanes hall
            rw [traverseLoop_step_leaves fe res hpop (by simp) (by rw [ht])
              (visit_leaf_eq_inl g v none lanes hgo)]
            rw [hup be res (leBestOpt_refl be)]
            exact ih rest_e p' X be res (by omega) hmq hinv_rest hdoom hpos fp (by omega)
      · -- the popped entry is an extra of the exhaustive queue
        have hdoom_ct : doomedEntry g v be (c, t) := hdoom (c, t) hmx
        have hdoom_x' : ∀ e ∈ x', doomedEntry g v be e :=
          fun e he => hdoom e (hsub e he)
        rcases ht : t with lanes | lanes
        · rw [traverseLoop_step_node fe res hpop (by simp) (by rw [ht])
            (visit_internal_eq g v none (lanes.map Prod.fst))]
          rw [node_children_eq g v none]
          have hchE : lanes.filterMap (fun l => if ltBest (laneScore g v l.1) none
              then some (laneScore g v l.1, l.2) else none) =
              lanes.map (fun l => (laneScore g v l.1, l.2)) := by
            simp only [ltBest, if_pos]
            exact filterMap_some_eq_map _ lanes
          rw [hchE]
          have hgl : goodLanes g v lanes := by
            have := hinv_ct.1
            rw [ht] at this
            exact this
          refine ih (rest_e ++ lanes.map (fun l => (laneScore g v l.1, l.2)))
            Qp (x' ++ lanes.map (fun l => (laneScore g v l.1, l.2))) be res ?_ ?_ ?_ ?_
            hpos (fp + 1) hfp0
          · rw [queueSize_append]
            have h1 : queueSize (lanes.map (fun l => (laneScore g v l.1, l.2))) ≤
                lanesSize lanes := by
              have := childEntries_size lanes
                ((lanes.map Prod.fst).map (laneScore g v))
                (((lanes.map Prod.fst).map (laneScore g v)).map (fun s => ltBest s none))
              rw [node_children_exhaustive] at this
              exact this
            have h2 : qbvhSize t = 1 + lanesSize lanes := by rw [ht, qbvhSize]
            omega
          · exact mergeq_append_extra hmq _
          · intro e he
            rcases List.mem_append.mp he with he | he
            · exact hinv_rest e he
            · obtain ⟨l, hl, hle⟩ := List.mem_map.mp he
              obtain ⟨lb, lsub⟩ := l
              obtain ⟨hgt, hbd⟩ := goodLanes_mem hgl hl
              rw [← hle]
              exact ⟨hgt, hbd⟩
          · intro e he
            rcases List.mem_append.mp he with he | he
            · exact hdoom_x' e he
            · obtain ⟨l, hl, hle⟩ := List.mem_map.mp he
              rw [← hle]
              intro pid hpid
              refine hdoom_ct pid ?_
              rw [ht]
              obtain ⟨l1, l2⟩ := l
              exact leafPids_lanes_mem hl pid hpid
        · have hall : ∀ l ∈ lanes, ∀ pid : A, l.2 = some pid →
              doomedPid g v be pid := by
            intro l hl pid hlp
            refine hdoom_ct pid ?_
            rw [ht]
            obtain ⟨l1, l2⟩ := l
            simp only at hlp
            subst hlp
            exact leafPids_leaf_mem hl
          obtain ⟨ws, ms, rs, hgo, hup⟩ := visit_leaves_doomed g v be lanes hall
          rw [traverseLoop_step_leaves fe res hpop (by simp) (by rw [ht])
            (visit_leaf_eq_inl g v none lanes hgo)]
          rw [hup be res (leBestOpt_refl be)]
          exact ih rest_e Qp x' be res (by omega) hmq hinv_rest hdoom_x' hpos
            (fp + 1) hfp0

/-- C1 (amended): for every composite shape, pose, dispatcher and margin such that
the hierarchy's Minkowski-sum scores are valid lower bounds (`goodTree`) and every
`WithinMargin` outcome has strictly positive recorded weight (`withinPositive`),
the best-first search with branch-and-bound pruning returns exactly the same
optional `(PartId, ClosestPoints)` result as the exhaustive search that invokes
the dispatcher on every leaf part.  Without the positivity condition the two can
differ: a zero-distance `WithinMargin` pair drives the best cost to `0`, pruning a
sibling lane whose subtree holds an intersecting leaf. -/
theorem pruned_search_eq_exhaustive_search
    {n : ℕ} {P I S A : Type} (g : GeomPrims n P I S)
    (dispatcher : QueryDispatcher P I S) (pos12 : I)
    (g1 : TypedSimdCompositeShape n I S A) (g2 : S) (margin : ℚ)
    (hw : withinPositive g
      (CompositeShapeAgainstShapeClosestPointsVisitor.new g dispatcher pos12 g1 g2
        margin))
    (hg : goodTree g
      (CompositeShapeAgainstShapeClosestPointsVisitor.new g dispatcher pos12 g1 g2
        margin) g1.qbvh) :
    traverse_best_first
        ((CompositeShapeAgainstShapeClosestPointsVisitor.new g dispatcher pos12 g1 g2
          margin).visit g) g1.qbvh =
      traverse_exhaustive
        ((CompositeShapeAgainstShapeClosestPointsVisitor.new g dispatcher pos12 g1 g2
          margin).visit g) g1.qbvh := by
  rw [traverse_best_first, traverse_exhaustive]
  refine (traverse_sim g _ hw (queueFuel [(0, g1.qbvh)]) [(0, g1.qbvh)] [(0, g1.qbvh)]
    [] none none ?_ ?_ ?_ ?_ ?_ (queueFuel [(0, g1.qbvh)]) ?_).symm
  · exact Nat.lt_succ_self _
  · exact .common _ .nil
  · intro e he
    rcases List.mem_cons.mp he with he | he
    · rw [he]
      refine ⟨hg, ?_⟩
      intro pid hpid
      rw [laneBoundOk]
      rcases hout : partOutcome g
          (CompositeShapeAgainstShapeClosestPointsVisitor.new g dispatcher pos12 g1 g2
            margin) pid with e' | cp
      · trivial
      · cases cp with
        | Intersecting => exact le_refl 0
        | WithinMargin p1 p2 => exact (hw pid p1 p2 hout).le
        | Disjoint => trivial
    · cases he
  · intro e he
    cases he
  · trivial
  · exact Nat.lt_succ_self _

/-! ### Concrete one-dimensional witness instances -/

/-- A one-dimensional interval box. -/
def box1 (lo hi : ℚ) : Aabb 1 := ⟨fun _ => lo, fun _ => hi⟩

/-- One-dimensional witness instance of the external primitives: points are
rationals, isometries are translations, shapes are numeric ids with a point box at
the origin; the distance is the absolute difference (the Euclidean distance in
dimension one) and distance-to-origin of an interval `[lo, hi]` is
`max lo (max (-hi) 0)`. -/
def primsW : GeomPrims 1 ℚ ℚ ℕ :=
  { apply := fun t p => p + t
    inv := fun t => -t
    invMul := fun a b => b - a
    dist := fun p q => |p - q|
    distToOrigin := fun a => max 0 (max (a.mins 0) (-(a.maxs 0)))
    computeAabb := fun _ _ => box1 0 0 }

/-- Dispatcher for the C1 counterexample: part shape `0` yields a zero-distance
`WithinMargin` pair, part shape `1` intersects, everything else is disjoint. -/
def dispC : QueryDispatcher ℚ ℚ ℕ := fun _ s1 _ _ =>
  if s1 = 0 then .ok (.WithinMargin 5 5)
  else if s1 = 1 then .ok .Intersecting
  else .ok .Disjoint

/-- Hierarchy for the C1 counterexample: a root with two leaf lanes, both boxes
containing the origin (valid lower bounds of score `0`). -/
def treeC : Qbvh 1 ℕ :=
  .node [(box1 (-1) 1, .leaves [(box1 (-1) 1, some 0)]),
         (box1 0 2, .leaves [(box1 0 2, some 1)])]

/-- Composite shape for the C1 counterexample; part poses are identities. -/
def g1C : TypedSimdCompositeShape 1 ℚ ℕ ℕ :=
  { qbvh := treeC, parts := fun pid => (none, pid) }

/-- The visitor of the C1 counterexample query. -/
def vC : CompositeShapeAgainstShapeClosestPointsVisitor 1 ℚ ℚ ℕ ℕ :=
  CompositeShapeAgainstShapeClosestPointsVisitor.new primsW dispC 0 g1C 9 10

/-- C1 (counterexample): on a valid two-part hierarchy whose first part yields a
zero-distance `WithinMargin` pair and whose second part intersects, the pruned
search returns the `WithinMargin` pair of part `0` while the exhaustive search
returns `Intersecting` for part `1` — the claim as stated fails.  The instance
satisfies the hierarchy bound invariant `goodTree`. -/
theorem pruned_search_ne_exhaustive_counterexample :
    traverse_best_first (vC.visit primsW) treeC = some (0, .WithinMargin 5 5) ∧
    traverse_exhaustive (vC.visit primsW) treeC = some (1, .Intersecting) ∧
    traverse_best_first (vC.visit primsW) treeC ≠
      traverse_exhaustive (vC.visit primsW) treeC ∧
    goodTree primsW vC treeC := by
  refine ⟨by with_unfolding_all rfl, by with_unfolding_all rfl, ?_, ?_⟩
  · intro h
    rw [show traverse_best_first (vC.visit primsW) treeC = some (0, .WithinMargin 5 5)
        from by with_unfolding_all rfl,
      show traverse_exhaustive (vC.visit primsW) treeC = some (1, .Intersecting)
        from by with_unfolding_all rfl] at h
    cases h
  · rw [treeC, goodTree, goodLanes, goodLanes, goodLanes]
    refine ⟨⟨?_, ?_⟩, ⟨?_, ?_⟩, trivial⟩
    · rw [goodTree]
      intro l hl pid hp
      rcases List.mem_singleton.mp hl with rfl
      cases hp
      rw [laneBoundOk, show partOutcome primsW vC 0 = .ok (.WithinMargin 5 5)
        from by with_unfolding_all rfl]
      have hs : laneScore primsW vC (box1 (-1) 1) = 0 := by with_unfolding_all rfl
      rw [hs]
      have hwz : laneWeight primsW vC 0 5 5 = 0 := by with_unfolding_all rfl
      show (0 : ℚ) ≤ laneWeight primsW vC 0 5 5
      exact hwz.ge
    · intro pid hpid
      have : leafPids (Qbvh.leaves [(box1 (-1) 1, some 0)]) = [0] := by
        with_unfolding_all rfl
      rw [this] at hpid
      rcases List.mem_singleton.mp hpid with rfl
      rw [laneBoundOk, show partOutcome primsW vC 0 = .ok (.WithinMargin 5 5)
        from by with_unfolding_all rfl]
      have hs : laneScore primsW vC (box1 (-1) 1) = 0 := by with_unfolding_all rfl
      have hwz : laneWeight primsW vC 0 5 5 = 0 := by with_unfolding_all rfl
      rw [hs]
      show (0 : ℚ) ≤ laneWeight primsW vC 0 5 5
      exact hwz.ge
    · rw [goodTree]
      intro l hl pid hp
      rcases List.mem_singleton.mp hl with rfl
      cases hp
      rw [laneBoundOk, show partOutcome primsW vC 1 = .ok .Intersecting
        from by with_unfolding_all rfl]
      have hs : laneScore primsW vC (box1 0 2) = 0 := by with_unfolding_all rfl
      rw [hs]
    · intro pid hpid
      have : leafPids (Qbvh.leaves [(box1 0 2, some 1)]) = [1] := by
        with_unfolding_all rfl
      rw [this] at hpid
      rcases List.mem_singleton.mp hpid with rfl
      rw [laneBoundOk, show partOutcome primsW vC 1 = .ok .Intersecting
        from by with_unfolding_all rfl]
      have hs : laneScore primsW vC (box1 0 2) = 0 := by with_unfolding_all rfl
      rw [hs]

/-- Dispatcher for the C1 witness: part shape `0` yields a `WithinMargin` pair at
distance `1`, everything else is disjoint. -/
def dispW1 : QueryDispatcher ℚ ℚ ℕ := fun _ s1 _ _ =>
  if s1 = 0 then .ok (.WithinMargin 1 0) else .ok .Disjoint

/-- A one-part composite at the origin with identity part poses. -/
def g1W1 : TypedSimdCompositeShape 1 ℚ ℕ ℕ :=
  { qbvh := .leaves [(box1 0 0, some 0)], parts := fun pid => (none, pid) }

/-- The visitor of the C1 witness query. -/
def vW1 : CompositeShapeAgainstShapeClosestPointsVisitor 1 ℚ ℚ ℕ ℕ :=
  CompositeShapeAgainstShapeClosestPointsVisitor.new primsW dispW1 0 g1W1 9 10

theorem pruned_search_eq_exhaustive_search_witness :
    traverse_best_first
        ((CompositeShapeAgainstShapeClosestPointsVisitor.new primsW dispW1 0 g1W1 9
          10).visit primsW) g1W1.qbvh =
      traverse_exhaustive
        ((CompositeShapeAgainstShapeClosestPointsVisitor.new primsW dispW1 0 g1W1 9
          10).visit primsW) g1W1.qbvh := by
  refine pruned_search_eq_exhaustive_search primsW dispW1 0 g1W1 9 10 ?_ ?_
  · intro pid p1 p2 h
    by_cases hp : pid = 0
    · subst hp
      rw [show partOutcome primsW
          (CompositeShapeAgainstShapeClosestPointsVisitor.new primsW dispW1 0 g1W1 9 10)
          0 = .ok (.WithinMargin 1 0) from by with_unfolding_all rfl] at h
      cases h
      rw [show laneWeight primsW
          (CompositeShapeAgainstShapeClosestPointsVisitor.new primsW dispW1 0 g1W1 9 10)
          0 1 0 = 1 from by with_unfolding_all rfl]
      norm_num
    · rw [partOutcome] at h
      simp only [visitorNew_dispatcher, visitorNew_pos12, visitorNew_g1, visitorNew_g2,
        visitorNew_margin, g1W1, dispW1, optInvMul] at h
      rw [if_neg hp] at h
      cases h
  · rw [show g1W1.qbvh = Qbvh.leaves [(box1 0 0, some 0)] from rfl, goodTree]
    intro l hl pid hp
    rcases List.mem_singleton.mp hl with rfl
    cases hp
    rw [laneBoundOk, show partOutcome primsW
        (CompositeShapeAgainstShapeClosestPointsVisitor.new primsW dispW1 0 g1W1 9 10)
        0 = .ok (.WithinMargin 1 0) from by with_unfolding_all rfl]
    rw [show laneScore primsW
        (CompositeShapeAgainstShapeClosestPointsVisitor.new primsW dispW1 0 g1W1 9 10)
        (box1 0 0) = 0 from by with_unfolding_all rfl]
    show (0 : ℚ) ≤ laneWeight primsW
      (CompositeShapeAgainstShapeClosestPointsVisitor.new primsW dispW1 0 g1W1 9 10)
      0 1 0
    rw [show laneWeight primsW
        (CompositeShapeAgainstShapeClosestPointsVisitor.new primsW dispW1 0 g1W1 9 10)
        0 1 0 = 1 from by with_unfolding_all rfl]
    norm_num

/-- Dispatcher reporting every pair as disjoint. -/
def dispD : QueryDispatcher ℚ ℚ ℕ := fun _ _ _ _ => .ok .Disjoint

/-- A one-part composite whose single part is farther than any margin per the
dispatcher above. -/
def g1D : TypedSimdCompositeShape 1 ℚ ℕ ℕ :=
  { qbvh := .leaves [(box1 0 1, some 0)], parts := fun pid => (none, pid) }

/-- The visitor of the all-disjoint query. -/
def vD : CompositeShapeAgainstShapeClosestPointsVisitor 1 ℚ ℚ ℕ ℕ :=
  CompositeShapeAgainstShapeClosestPointsVisitor.new primsW dispD 0 g1D 9 10

/-- C3: evaluating the query on a *non-empty* composite whose single part is
reported `Disjoint` hits the `expect` with the message claiming the composite is
empty: the traversal records no result, `traverse_best_first` returns `none`, and
the call aborts even though the hierarchy has a part. -/
theorem nonempty_all_disjoint_composite_panics :
    closest_points_composite_shape_shape primsW dispD 0 g1D 9 10 =
      .error "The composite shape must not be empty." ∧
    leafPids g1D.qbvh = [0] :=
  ⟨by with_unfolding_all rfl, by with_unfolding_all rfl⟩

/-- Dispatcher for the C6 theorems: reports the pair `(1, 0)` whenever it is
within the margin under the given pose (so the within-margin contract holds). -/
def dispW6 : QueryDispatcher ℚ ℚ ℕ := fun pos _ _ m =>
  if |1 - (0 + pos)| ≤ m then .ok (.WithinMargin 1 0) else .ok .Disjoint

/-- C6 (counterexample): with relative pose the translation by `1`, the query
returns `WithinMargin(1, 0)` where the dispatcher's own second point is `0`
expressed in the second shape's frame; its composite-frame expression would be
`pos12 · 0 = 1 ≠ 0`, so the second returned point is not expressed in the first
(composite) shape's frame as the claim states. -/
theorem within_margin_q2_not_composite_frame_counterexample :
    closest_points_composite_shape_shape primsW dispW6 1 g1W1 9 10 =
      .ok (.WithinMargin 1 0) ∧
    dispW6 (optInvMul primsW (g1W1.parts 0).1 1) (g1W1.parts 0).2 9 10 =
      .ok (.WithinMargin 1 0) ∧
    primsW.apply 1 0 = 1 ∧ (1 : ℚ) ≠ 0 :=
  ⟨by with_unfolding_all rfl, by with_unfolding_all rfl, by with_unfolding_all rfl,
    by norm_num⟩

theorem within_margin_result_frames_and_separation_witness :
    ∃ pid p1 p2,
      partOutcome primsW
          (CompositeShapeAgainstShapeClosestPointsVisitor.new primsW dispW6 1 g1W1 9
            10) pid = .ok (.WithinMargin p1 p2) ∧
      (1 : ℚ) = lanePoint1 primsW
          (CompositeShapeAgainstShapeClosestPointsVisitor.new primsW dispW6 1 g1W1 9
            10) pid p1 ∧
      (0 : ℚ) = p2 ∧
      ((∀ pos s1 s2 m (pa pb : ℚ), dispW6 pos s1 s2 m = .ok (.WithinMargin pa pb) →
          primsW.dist pa (primsW.apply pos pb) ≤ m) →
        (∀ i (pa pb : ℚ), primsW.dist (primsW.apply i pa) (primsW.apply i pb) =
          primsW.dist pa pb) →
        (∀ i j (p : ℚ), primsW.apply i (primsW.apply (primsW.invMul i j) p) =
          primsW.apply j p) →
        primsW.dist 1 (primsW.apply 1 0) ≤ 10) :=
  within_margin_result_frames_and_separation primsW dispW6 1 g1W1 9 10 1 0
    (by with_unfolding_all rfl)

theorem visit_scores_minkowski_and_mask_witness :
    visitLeavesGo primsW vC (some 0) ((box1 2 3, some 0) :: []) =
      laneCons (0, false, none) (visitLeavesGo primsW vC (some 0) []) :=
  (visit_scores_minkowski_and_mask primsW vC (some 0) []).2 (box1 2 3) (some 0) []
    (by with_unfolding_all rfl)

theorem visit_exit_early_iff_witness :
    vC.visit primsW none [box1 0 2] (some [some 1]) =
      .ExitEarly (some (1, .Intersecting)) :=
  ((visit_exit_early_iff primsW vC none [box1 0 2] [some 1]).2
      (some (1, .Intersecting))).mpr
    ⟨[], box1 0 2, 1, [], by with_unfolding_all rfl, rfl,
      by with_unfolding_all rfl, rfl, by intro lane h; cases h⟩

theorem visit_leaf_within_margin_records_witness :
    visitLeavesGo primsW vW1 none ((box1 0 0, some 0) :: []) =
      laneCons (laneWeight primsW vW1 0 1 0, true,
          some (0, .WithinMargin (lanePoint1 primsW vW1 0 1) 0))
        (visitLeavesGo primsW vW1 none []) ∧
    laneWeight primsW vW1 0 1 0 =
      primsW.dist (optApply primsW (vW1.g1.parts 0).1 1) (primsW.apply vW1.pos12 0) ∧
    lanePoint1 primsW vW1 0 1 = optApply primsW (vW1.g1.parts 0).1 1 :=
  visit_leaf_within_margin_records primsW vW1 none (box1 0 0) 0 1 0 [] rfl
    (by with_unfolding_all rfl)

theorem visit_leaf_disjoint_or_error_drops_lane_witness :
    visitLeavesGo primsW vD none ((box1 0 1, some 0) :: []) =
      laneCons (0, false, none) (visitLeavesGo primsW vD none []) ∧
    (∀ ws ms rs, visitLeavesGo primsW vD none [] = .inl (ws, ms, rs) →
      visitLeavesGo primsW vD none ((box1 0 1, some 0) :: []) =
        .inl (0 :: ws, false :: ms, none :: rs)) :=
  visit_leaf_disjoint_or_error_drops_lane primsW vD none (box1 0 1) 0 []
    (Or.inl (by with_unfolding_all rfl))

end Parry
